import Mathlib

/-!
Verification development for the Fast-Danbooru-Dataset-DL post-processor
(`src/post_processor.py`).

Strings are modelled as lists of characters (`Str := List Char`); Python's
string operations (`split`, `strip`, `replace`, `re.sub` with the
lookbehind patterns used in the source, `os.path.splitext`, `os.path.join`,
`os.path.basename`, `str.lower().endswith`) are embedded as executable Lean
functions below, each translated from the corresponding CPython behaviour
as exercised by the source.  The filesystem is modelled as an association
list of full paths to file contents plus a list of directories; `os.rename`
follows POSIX semantics (fails when the source is absent, silently replaces
an existing destination).  File contents are either decodable text or an
opaque binary payload (reading the latter as UTF-8 text fails, which is how
per-item read errors enter the model).  `ProcessResult.message` (a purely
human-readable summary string in the source) is not modelled; all other
fields are.  Python `set` arguments are modelled by their iteration
sequence: a duplicate-free list whose order is unspecified by Python, so
functions receiving a set take the iteration sequence as an explicit list.
-/

namespace FDD

/-- A Python string, modelled as its list of characters. -/
abbrev Str := List Char

/-- The characters removed by Python's default `str.strip()` (ASCII
whitespace; the source only ever strips tag text). -/
def isSpace (c : Char) : Bool :=
  c == ' ' || c == '\t' || c == '\n' || c == '\r' || c == '\x0b' || c == '\x0c'

/-- Remove trailing characters satisfying `isSpace` (Python `str.rstrip`). -/
def rstrip (l : Str) : Str :=
  (l.reverse.dropWhile isSpace).reverse

/-- Python `str.strip()` with no argument: drop leading and trailing
whitespace. -/
def pystrip (l : Str) : Str :=
  rstrip (l.dropWhile isSpace)

/-- Python `str.split(sep)` for a one-character separator: split at every
occurrence, keeping empty pieces (`''.split(c) = ['']`). -/
def splitChar (sep : Char) : Str → List Str
  | [] => [[]]
  | c :: rest =>
    match splitChar sep rest with
    | [] => [[]]
    | h :: t => if c = sep then [] :: h :: t else (c :: h) :: t

/-- Python `', '.join(tags)`. -/
def joinComma : List Str → Str
  | [] => []
  | [t] => t
  | t :: ts => t ++ ',' :: ' ' :: joinComma ts

/-- Python `str.replace(u, v)` for single characters (every occurrence is
replaced). -/
def replaceChar (u v : Char) (l : Str) : Str :=
  l.map (fun c => if c = u then v else c)

/-- One pass of `re.sub(r'(?<!\\)t', r'\t', s)` for a literal character `t`
(as used with `t = '('` and `t = ')'` in `auto_standardize_tags`): scanning
the original string left to right, every occurrence of `t` whose
immediately preceding character in the original string is not a backslash
is replaced by backslash-`t`.  `prev` is the character preceding the
current position (`none` at the start of the string). -/
def escCh (t : Char) : Option Char → Str → Str
  | _, [] => []
  | prev, c :: rest =>
    if c = t ∧ prev ≠ some '\\' then '\\' :: c :: escCh t (some c) rest
    else c :: escCh t (some c) rest

/-- `tag = re.sub(r'(?<!\\)\(', r'\(', tag); tag = re.sub(r'(?<!\\)\)', r'\)', tag)`. -/
def escapeParens (t : Str) : Str :=
  escCh ')' none (escCh '(' none t)

/-- `tag.replace('_', ' ').replace('-', ' ')`. -/
def replaceUnderscoreHyphen (t : Str) : Str :=
  replaceChar '-' ' ' (replaceChar '_' ' ' t)

/-- The `seen`-set loop of the source's dedup step: keep the first
occurrence of every element, where `seen` is the set of elements already
kept (Python uses a `set`; only membership is consulted, so a list is a
faithful model). -/
def dedupAux (seen : List Str) : List Str → List Str
  | [] => []
  | x :: xs => if x ∈ seen then dedupAux seen xs else x :: dedupAux (x :: seen) xs

/-- First-occurrence deduplication, as performed at the end of both
`auto_standardize_tags` and `clean_and_edit_tags`. -/
def pyDedup (l : List Str) : List Str := dedupAux [] l

/-- The `seen` set after the dedup loop has processed `l` starting from
`seen` (used to reason about deduplication of an appended list). -/
def dedupSeen (seen : List Str) : List Str → List Str
  | [] => seen
  | x :: xs => if x ∈ seen then dedupSeen seen xs else dedupSeen (x :: seen) xs

/-- The per-line tag extraction of `auto_standardize_tags`: a line
containing a comma is split on commas (stripped, empties dropped),
otherwise the stripped line is one tag when non-empty. -/
def parseLine (line : Str) : List Str :=
  if line.contains ',' then
    ((splitChar ',' line).map pystrip).filter (fun t => !t.isEmpty)
  else if (pystrip line).isEmpty then [] else [pystrip line]

/-- Step 1 of `auto_standardize_tags`: split the input on newlines and
extract tags per line. -/
def splitTags (text : Str) : List Str :=
  (splitChar '\n' text).flatMap parseLine

/-- `PostProcessor.auto_standardize_tags` (src/post_processor.py:267-319):
newline/comma splitting, underscore/hyphen replacement, escaping of
unescaped parentheses, strip/drop-empty, first-occurrence dedup, and
comma-space join.  Empty or whitespace-only input yields the empty
string. -/
def auto_standardize_tags (text : Str) : Str :=
  if (pystrip text).isEmpty then [] else
  let tags1 := (splitTags text).map replaceUnderscoreHyphen
  let tags2 := tags1.map escapeParens
  let tags3 := (tags2.map pystrip).filter (fun t => !t.isEmpty)
  joinComma (pyDedup tags3)

/-- `str.lower()` (ASCII case folding suffices for the extension and
suffix comparisons in the source). -/
def pyLower (l : Str) : Str := l.map Char.toLower

/-- Decimal digit characters. -/
def digitChar (d : Nat) : Char :=
  match d with
  | 0 => '0' | 1 => '1' | 2 => '2' | 3 => '3' | 4 => '4'
  | 5 => '5' | 6 => '6' | 7 => '7' | 8 => '8' | _ => '9'

/-- Fuel-driven decimal rendering helper (structural recursion so concrete
instances reduce in the kernel). -/
def natToStrAux : Nat → Nat → Str
  | 0, _ => []
  | fuel + 1, n =>
    if n < 10 then [digitChar n] else natToStrAux fuel (n / 10) ++ [digitChar (n % 10)]

/-- Python `str(n)` for a natural number, as used in the f-strings
`f"temp_{new_index}{ext}"` and `f"{new_index}{ext}"`. -/
def natToStr (n : Nat) : Str := natToStrAux (n + 1) n

/-- `os.path.splitext`: split off the extension at the last dot of the
basename, with CPython's rule that a basename consisting only of leading
dots before that dot has no extension. -/
def splitext (p : Str) : Str × Str :=
  match ((p.reverse.takeWhile (fun c => c ≠ '/')).dropWhile (fun c => c ≠ '.')) with
  | [] => (p, [])
  | _ :: rpre =>
    if rpre.reverse.all (fun c => c == '.') then (p, [])
    else
      ((p.reverse.drop
          (((p.reverse.takeWhile (fun c => c ≠ '/')).takeWhile (fun c => c ≠ '.')).length + 1)).reverse,
        '.' :: ((p.reverse.takeWhile (fun c => c ≠ '/')).takeWhile (fun c => c ≠ '.')).reverse)

/-- `os.path.join(folder, name)` for a relative `name` and a folder with no
trailing separator (the shapes produced by `os.listdir` traversal in the
source). -/
def pjoin (folder name : Str) : Str := folder ++ '/' :: name

/-- `os.path.basename`: the part after the last `/`. -/
def basename (p : Str) : Str :=
  (p.reverse.takeWhile (fun c => c ≠ '/')).reverse

/-- The suffix `'.txt'`. -/
def txtSuffix : Str := ['.', 't', 'x', 't']

/-- `f.lower().endswith('.txt')`, the text-file test of the scanner. -/
def endsTxt (f : Str) : Bool := txtSuffix.isSuffixOf (pyLower f)

/-- The hard-coded image extension allow-list of `PostProcessor.__init__`. -/
def image_extensions : List Str :=
  [['.', 'j', 'p', 'g'], ['.', 'j', 'p', 'e', 'g'], ['.', 'p', 'n', 'g'],
   ['.', 'g', 'i', 'f'], ['.', 'b', 'm', 'p'], ['.', 'w', 'e', 'b', 'p']]

/-- `os.path.splitext(f)[1].lower() in self.image_extensions`. -/
def isImage (f : Str) : Bool := image_extensions.contains (pyLower (splitext f).2)

/-- Lexicographic comparison on code points; `Python sorted` uses exactly
this order on strings. -/
def strLt : Str → Str → Bool
  | [], [] => false
  | [], _ :: _ => true
  | _ :: _, [] => false
  | a :: as, b :: bs => if a < b then true else if b < a then false else strLt as bs

/-- `sorted(...)` on filenames. -/
def pySorted (l : List Str) : List Str :=
  l.insertionSort (fun a b => strLt b a = false)

/-- `dataclass FileInfo` of the source: one image-file record produced by
the scanner.  Paths are full paths (folder-joined), exactly as stored by
the source. -/
structure FileInfo where
  image_path : Option Str := none
  text_path : Option Str := none
  base_name : Str := []
  is_paired : Bool := false
deriving DecidableEq, Repr

/-- Python truthiness of an `Optional[str]` field (`if file_info.image_path:`):
`None` and the empty string are falsy. -/
def truthyPath : Option Str → Option Str
  | none => none
  | some p => if p.isEmpty then none else some p

/-- The `used_texts` set of the scanner: basenames of the caption paths of
paired records. -/
def usedTexts (records : List FileInfo) : List Str :=
  records.filterMap (fun r => if r.is_paired then r.text_path.map basename else none)

/-- The matching loop body of `scan_and_match_files` for one image file:
candidate `base + '.txt'` wins over candidate `img + '.txt'`; with neither
present the image is unpaired. -/
def matchImage (folder : Str) (texts : List Str) (img : Str) : FileInfo :=
  let base := (splitext img).1
  let t1 := base ++ txtSuffix
  let t2 := img ++ txtSuffix
  if t1 ∈ texts then
    { image_path := some (pjoin folder img), text_path := some (pjoin folder t1)
      base_name := base, is_paired := true }
  else if t2 ∈ texts then
    { image_path := some (pjoin folder img), text_path := some (pjoin folder t2)
      base_name := base, is_paired := true }
  else
    { image_path := some (pjoin folder img), text_path := none
      base_name := base, is_paired := false }

/-- The pure core of `PostProcessor.scan_and_match_files`
(src/post_processor.py:109-181), applied to the folder listing: classify
files into (sorted) images and texts, build one record per image, and
collect the caption files not consumed by any record.  (The local
`unpaired_images` list of the source is used only for logging and is not
part of the return value.) -/
def scan_core (folder : Str) (files : List Str) : List FileInfo × List Str :=
  let images := pySorted (files.filter isImage)
  let texts := pySorted (files.filter endsTxt)
  let records := images.map (matchImage folder texts)
  let used := usedTexts records
  let unpaired := (texts.filter (fun t => !used.contains t)).map (pjoin folder)
  (records, unpaired)

/-- Contents of a file: UTF-8 decodable text, or an opaque payload whose
read as text fails (image bytes, undecodable captions). -/
inductive FContent where
  | text (s : Str)
  | binary (id : Nat)
deriving DecidableEq, Repr

/-- The filesystem: full path → content for regular files, plus the set of
directories.  Paths are absolute-or-relative strings exactly as the source
builds them with `os.path.join`. -/
structure FS where
  files : List (Str × FContent)
  dirs : List Str
deriving DecidableEq, Repr

def fsGet (fs : FS) (p : Str) : Option FContent :=
  (fs.files.find? (fun e => e.1 == p)).map Prod.snd

def fsRemoveFile (fs : FS) (p : Str) : FS :=
  { fs with files := fs.files.filter (fun e => e.1 != p) }

/-- Create or overwrite the file at `p`. -/
def fsSetFile (fs : FS) (p : Str) (c : FContent) : FS :=
  { fs with files := (p, c) :: (fsRemoveFile fs p).files }

/-- `os.path.exists`. -/
def fsExists (fs : FS) (p : Str) : Bool :=
  (fsGet fs p).isSome || fs.dirs.contains p

/-- `os.rename` under POSIX semantics: fails (raises) when the source file
does not exist; silently replaces any existing regular file at the
destination. -/
def os_rename (fs : FS) (src dst : Str) : Option FS :=
  match fsGet fs src with
  | none => none
  | some c => some (fsSetFile (fsRemoveFile fs src) dst c)

/-- The name of an entry of `folder`, if `p` is a path directly inside
`folder`. -/
def childName (folder p : Str) : Option Str :=
  let rec go : Str → Str → Option Str
    | [], rest => some rest
    | _ :: _, [] => none
    | a :: as, b :: bs => if a = b then go as bs else none
  match go (folder ++ ['/']) p with
  | some rest => if rest.contains '/' || rest.isEmpty then none else some rest
  | none => none

/-- `os.listdir folder`: names of the regular files and subdirectories
directly inside `folder` (order: filesystem order; the source sorts or
treats the listing as a set wherever the order matters). -/
def listdir (fs : FS) (folder : Str) : List Str :=
  fs.files.filterMap (fun e => childName folder e.1) ++ fs.dirs.filterMap (childName folder)

/-- Error items recorded into `ProcessResult.errors`.  The source stores
formatted message strings; the model keeps the identifying data of each
message (one entry per failed unit, in the order recorded). -/
inductive ErrItem where
  | renameFail (src dst : Str)
  | tagFail (path : Str)
  | moveFail (path : Str)
  | scanFail (folder : Str)
deriving DecidableEq, Repr

/-- `dataclass ProcessResult` of the source (the human-readable `message`
summary is not modelled). -/
structure ProcessResult where
  success : Bool := false
  processed_files : Nat := 0
  renamed_files : Nat := 0
  standardized_tags : Nat := 0
  unpaired_files : Nat := 0
  errors : List ErrItem := []
deriving DecidableEq, Repr

/-- Errors raised by `scan_and_match_files`: the folder is missing
(`ValueError`, the spec's `NotFoundError`), or listing it fails for
another reason (e.g. the path is a regular file). -/
inductive ScanErr where
  | notFound
  | notADirectory
deriving DecidableEq, Repr

/-- `PostProcessor.scan_and_match_files` (src/post_processor.py:109-181):
raise when the folder path does not exist, otherwise scan the listing.
The function only reads the filesystem, so it does not return one. -/
def scan_and_match_files (fs : FS) (folder : Str) : Except ScanErr (List FileInfo × List Str) :=
  if !fsExists fs folder then .error .notFound
  else if fs.dirs.contains folder then .ok (scan_core folder (listdir fs folder))
  else .error .notADirectory

/-- The hard-coded `self.rename_start_index` of `PostProcessor.__init__`. -/
def rename_start_index : Nat := 1

/-- `f"temp_{n}{ext}"`. -/
def tempName (n : Nat) (ext : Str) : Str :=
  ['t', 'e', 'm', 'p', '_'] ++ natToStr n ++ ext

/-- `f"{n}{ext}"`. -/
def finalName (n : Nat) (ext : Str) : Str := natToStr n ++ ext

/-- The `(old, temp)` and `(temp, final)` pairs contributed by one record
at numeric index `n` in `rename_files`: the image (when its path is
truthy) keeps its own extension; the caption (when truthy) is mapped to
`.txt` names. -/
def planRecord (folder : Str) (n : Nat) (info : FileInfo) : List (Str × Str) × List (Str × Str) :=
  let imgPart :=
    match truthyPath info.image_path with
    | some p =>
      let ext := (splitext p).2
      ([(p, pjoin folder (tempName n ext))],
       [(pjoin folder (tempName n ext), pjoin folder (finalName n ext))])
    | none => ([], [])
  let txtPart :=
    match truthyPath info.text_path with
    | some p =>
      ([(p, pjoin folder (tempName n txtSuffix))],
       [(pjoin folder (tempName n txtSuffix), pjoin folder (finalName n txtSuffix))])
    | none => ([], [])
  (imgPart.1 ++ txtPart.1, imgPart.2 ++ txtPart.2)

/-- The complete `temp_renames` and `final_renames` lists built by the
`enumerate(file_infos)` loop of `rename_files`, where the record at
position `i` gets index `n + i`. -/
def buildPlan (folder : Str) : Nat → List FileInfo → List (Str × Str) × List (Str × Str)
  | _, [] => ([], [])
  | n, info :: rest =>
    let here := planRecord folder n info
    let there := buildPlan folder (n + 1) rest
    (here.1 ++ there.1, here.2 ++ there.2)

/-- Execute a list of rename attempts in order: each failure is recorded
and does not stop the loop; the returned count is the number of successful
renames. -/
def runOps : FS → List (Str × Str) → FS × Nat × List ErrItem
  | fs, [] => (fs, 0, [])
  | fs, (s, d) :: rest =>
    match os_rename fs s d with
    | some fs' =>
      let r := runOps fs' rest
      (r.1, r.2.1 + 1, r.2.2)
    | none =>
      let r := runOps fs rest
      (r.1, r.2.1, .renameFail s d :: r.2.2)

/-- `PostProcessor.rename_files` (src/post_processor.py:183-265): build
both phases' rename lists, execute all Phase-1 (to-temporary) renames,
then all Phase-2 (to-final) renames; `renamed_files` counts Phase-1
successes only, and `success` is set iff no error was recorded. -/
def rename_files (fs : FS) (folder : Str) (infos : List FileInfo) : FS × ProcessResult :=
  let plan := buildPlan folder rename_start_index infos
  let ph1 := runOps fs plan.1
  let ph2 := runOps ph1.1 plan.2
  let errs := ph1.2.2 ++ ph2.2.2
  (ph2.1,
   { success := errs.isEmpty, renamed_files := ph1.2.1, errors := errs })

/-- Python's substring test `needle in hay`. -/
def isSubstr (needle hay : Str) : Bool :=
  (List.range (hay.length + 1)).any (fun i => needle.isPrefixOf (hay.drop i))

/-- The tag list of `clean_and_edit_tags` after splitting and the two
removal steps (exact removal, then removal of tags containing any member
of `removeContaining`; the source's `break` only short-circuits the scan,
the removal outcome is `any`). -/
def tagsAfterRemoval (text : Str) (removeTags removeContaining : List Str) : List Str :=
  let tags0 := ((splitChar ',' text).map pystrip).filter (fun t => !t.isEmpty)
  let tags1 := if removeTags.isEmpty then tags0
    else tags0.filter (fun t => !removeTags.contains t)
  if removeContaining.isEmpty then tags1
  else tags1.filter (fun t => !removeContaining.any (fun c => isSubstr c t))

/-- `PostProcessor.clean_and_edit_tags` (src/post_processor.py:321-380).
The three `set` parameters are modelled by their iteration sequences
(duplicate-free lists); only the order of `addTags` is observable in the
result.  Empty or whitespace-only input returns the empty string before
any other step. -/
def clean_and_edit_tags (text : Str) (removeTags removeContaining addTags : List Str) : Str :=
  if (pystrip text).isEmpty then [] else
  let tags2 := tagsAfterRemoval text removeTags removeContaining
  let tags3 := if addTags.isEmpty then tags2
    else tags2 ++ addTags.filter (fun t => !tags2.contains t)
  let tags4 := (tags3.map pystrip).filter (fun t => !t.isEmpty)
  joinComma (pyDedup tags4)

/-- `PostProcessor.standardize_tags` (src/post_processor.py:382-435):
for each record with a truthy, existing caption path, read it, apply
`auto_standardize_tags`, and write it back; a read failure (undecodable
content) is recorded and processing continues. -/
def standardize_tags (fs : FS) (folder : Str) (infos : List FileInfo) : FS × ProcessResult :=
  let step := fun (acc : FS × Nat × List ErrItem) (info : FileInfo) =>
    match truthyPath info.text_path with
    | none => acc
    | some p =>
      match fsGet acc.1 p with
      | none => acc
      | some (.text s) =>
        (fsSetFile acc.1 p (.text (auto_standardize_tags s)), acc.2.1 + 1, acc.2.2)
      | some (.binary _) => (acc.1, acc.2.1, acc.2.2 ++ [.tagFail p])
  let r := infos.foldl step (fs, 0, [])
  (r.1, { success := r.2.2.isEmpty, standardized_tags := r.2.1, errors := r.2.2 })

/-- The collision-avoidance candidate `f"{name}_{counter}{ext}"` built from
the original destination in `handle_unpaired_files`. -/
def underscoreCand (orig : Str) (k : Nat) : Str :=
  (splitext orig).1 ++ '_' :: natToStr k ++ (splitext orig).2

/-- The `while os.path.exists(dest_path)` counter loop, made structural by
fuel; the fuel bound exceeds the number of filesystem entries, so in any
reachable state a free candidate is found before it runs out. -/
def freeDestAux (fs : FS) (orig : Str) : Nat → Nat → Str
  | 0, k => underscoreCand orig k
  | fuel + 1, k =>
    let c := underscoreCand orig k
    if fsExists fs c then freeDestAux fs orig fuel (k + 1) else c

/-- Destination actually used for a move: the original name, or the first
free `_<n>` variant. -/
def freeDest (fs : FS) (orig : Str) : Str :=
  if fsExists fs orig then freeDestAux fs orig (fs.files.length + fs.dirs.length + 1) 1
  else orig

/-- One iteration of the move loop of `handle_unpaired_files`
(`shutil.move` of a regular file; a missing source is the per-item
failure). -/
def moveOne (fs : FS) (ufolder p : Str) : FS × Option ErrItem :=
  match fsGet fs p with
  | none => (fs, some (.moveFail p))
  | some c =>
    let dest := freeDest fs (pjoin ufolder (basename p))
    (fsSetFile (fsRemoveFile fs p) dest c, none)

/-- `PostProcessor.handle_unpaired_files` (src/post_processor.py:437-503):
no-op success on an empty list; otherwise ensure the `unpaired` subfolder
exists and move each file into it, best-effort.
(`self.create_unpaired_folder` is hard-coded `True`.) -/
def handle_unpaired_files (fs : FS) (folder : Str) (unpaired : List Str) : FS × ProcessResult :=
  if unpaired.isEmpty then (fs, { success := true })
  else
    let uf := pjoin folder ['u', 'n', 'p', 'a', 'i', 'r', 'e', 'd']
    let fs0 : FS := { fs with dirs := if fs.dirs.contains uf then fs.dirs else uf :: fs.dirs }
    let step := fun (acc : FS × Nat × List ErrItem) (p : Str) =>
      let m := moveOne acc.1 uf p
      match m.2 with
      | none => (m.1, acc.2.1 + 1, acc.2.2)
      | some e => (m.1, acc.2.1, acc.2.2 ++ [e])
    let r := unpaired.foldl step (fs0, 0, [])
    (r.1, { success := r.2.2.isEmpty, unpaired_files := r.2.1, errors := r.2.2 })

/-- `PostProcessor.auto_post_process` (src/post_processor.py:505-562): scan,
handle unpaired captions, rename, re-scan, standardize; errors from the
three mutating stages are aggregated in that order, and a scan failure is
caught by the outer handler and recorded.  (The `threading.Lock` only
serializes concurrent calls and has no sequential effect.) -/
def auto_post_process (fs : FS) (folder : Str) : FS × ProcessResult :=
  match scan_and_match_files fs folder with
  | .error _ => (fs, { success := false, errors := [.scanFail folder] })
  | .ok (records, unpairedList) =>
    let h := handle_unpaired_files fs folder unpairedList
    let r := rename_files h.1 folder records
    match scan_and_match_files r.1 folder with
    | .error _ =>
      (r.1, { success := false, processed_files := records.length
              renamed_files := r.2.renamed_files, unpaired_files := h.2.unpaired_files
              errors := h.2.errors ++ r.2.errors ++ [.scanFail folder] })
    | .ok (records2, _) =>
      let s := standardize_tags r.1 folder records2
      let errs := h.2.errors ++ r.2.errors ++ s.2.errors
      (s.1, { success := errs.isEmpty, processed_files := records.length
              renamed_files := r.2.renamed_files, standardized_tags := s.2.standardized_tags
              unpaired_files := h.2.unpaired_files, errors := errs })

/-- `PostProcessor.manual_tag_process` (src/post_processor.py:564-636):
apply `clean_and_edit_tags` to every `.txt` file directly in the folder.
The caller's lists are converted to Python sets; `addIter` is the
iteration sequence of `set(add_tags)` (order unspecified by Python, hence
a separate argument), while for the two removal sets only membership
matters, so their caller lists are used directly.  A missing or unlistable
folder is caught by the outer handler and recorded as the sole error. -/
def manual_tag_process (fs : FS) (folder : Str) (removeTags removeContaining addIter : List Str) :
    FS × ProcessResult :=
  if !fs.dirs.contains folder then (fs, { success := false, errors := [.scanFail folder] })
  else
    let txts := ((listdir fs folder).filter endsTxt).map (pjoin folder)
    let step := fun (acc : FS × Nat × List ErrItem) (p : Str) =>
      match fsGet acc.1 p with
      | some (.text s) =>
        (fsSetFile acc.1 p (.text (clean_and_edit_tags s removeTags removeContaining addIter)),
         acc.2.1 + 1, acc.2.2)
      | some (.binary _) => (acc.1, acc.2.1, acc.2.2 ++ [.tagFail p])
      | none => (acc.1, acc.2.1, acc.2.2 ++ [.tagFail p])
    let r := txts.foldl step (fs, 0, [])
    (r.1, { success := r.2.2.isEmpty, processed_files := r.2.1, errors := r.2.2 })

/-- A duplicate-free list `it` is an admissible iteration sequence of the
Python set built from the list `l` iff it enumerates exactly the members
of `l`. -/
def IsSetIteration (l it : List Str) : Prop :=
  it.Nodup ∧ ∀ x, x ∈ it ↔ x ∈ l

/-- Filesystem state after attempting a sequence of renames in order
(the per-item bookkeeping of `runOps` dropped). -/
def execRenames (fs : FS) (ops : List (Str × Str)) : FS := (runOps fs ops).1

/-- Decimal digit test. -/
def isDigitCh (c : Char) : Bool := '0' ≤ c && c ≤ '9'

/-- Numeric value of a decimal digit string (left fold). -/
def strVal (l : Str) : Nat := l.foldl (fun a c => 10 * a + (c.toNat - 48)) 0

/-- All occurrences of `t` in the string are immediately preceded by a
backslash, where `prev` is the character before the string's first
position.  This is the post-condition of the escaping pass of
`auto_standardize_tags`. -/
def allEscaped (t : Char) : Option Char → Str → Bool
  | _, [] => true
  | prev, c :: rest =>
    (if c = t then decide (prev = some '\\') else true) && allEscaped t (some c) rest

/-- A canonical output tag of `auto_standardize_tags`: non-empty, already
stripped, free of newlines, commas, underscores and hyphens, and with
every parenthesis escaped. -/
def NormTag (t : Str) : Prop :=
  t ≠ [] ∧ pystrip t = t ∧ '\n' ∉ t ∧ ',' ∉ t ∧ '_' ∉ t ∧ '-' ∉ t ∧
    allEscaped '(' none t = true ∧ allEscaped ')' none t = true

/-! ### Generic list helper lemmas -/

lemma mem_of_mem_dropWhile {α : Type} {p : α → Bool} {x : α} :
    ∀ {l : List α}, x ∈ l.dropWhile p → x ∈ l := by
  intro l h
  induction l with
  | nil => simpa [List.dropWhile] using h
  | cons a as ih =>
    rw [List.dropWhile_cons] at h
    by_cases hp : p a = true
    · simp only [hp, if_true] at h
      exact List.mem_cons_of_mem _ (ih h)
    · simp only [hp, if_false] at h
      exact h

lemma countP_and_not_and {α : Type} (p q : α → Bool) :
    ∀ l : List α,
      l.countP (fun a => p a && q a) + l.countP (fun a => p a && !q a) = l.countP p := by
  intro l
  induction l with
  | nil => simp
  | cons a as ih =>
    rw [List.countP_cons, List.countP_cons, List.countP_cons]
    cases hp : p a <;> cases hq : q a <;> simp [hp, hq] <;> omega

lemma countP_eq_one_of_nodup {α : Type} [DecidableEq α] {l : List α} {x : α}
    (hnd : l.Nodup) (hx : x ∈ l) :
    l.countP (fun a => decide (a = x)) = 1 := by
  induction l with
  | nil => cases hx
  | cons a as ih =>
    rw [List.countP_cons]
    rcases List.mem_cons.mp hx with rfl | hmem
    · have hnot : as.countP (fun b => decide (b = x)) = 0 := by
        rw [List.countP_eq_zero]
        intro b hb
        simp only [decide_eq_true_eq]
        intro hba
        exact (List.nodup_cons.mp hnd).1 (hba ▸ hb)
      simp [hnot]
    · have ha : a ≠ x := by
        intro h
        exact (List.nodup_cons.mp hnd).1 (h ▸ hmem)
      have := ih (List.nodup_cons.mp hnd).2 hmem
      simp [this, ha]

/-! ### Path and name lemmas -/

lemma pjoin_inj {folder a b : Str} (h : pjoin folder a = pjoin folder b) : a = b := by
  have h2 := List.append_cancel_left h
  injection h2 with h3 h4

lemma isPrefixOf_append_self : ∀ (l t : Str), l.isPrefixOf (l ++ t) = true := by
  intro l t
  induction l with
  | nil => simp [List.isPrefixOf]
  | cons a as ih => simpa [List.isPrefixOf] using ih

lemma endsTxt_append_suffix (b : Str) : endsTxt (b ++ txtSuffix) = true := by
  unfold endsTxt pyLower
  rw [List.map_append]
  have htxt : txtSuffix.map Char.toLower = txtSuffix := by decide
  rw [htxt]
  unfold List.isSuffixOf
  rw [List.reverse_append]
  exact isPrefixOf_append_self txtSuffix.reverse (b.map Char.toLower).reverse

lemma mem_pySorted {l : List Str} {a : Str} : a ∈ pySorted l ↔ a ∈ l :=
  List.mem_insertionSort _

lemma pySorted_nodup {l : List Str} (h : l.Nodup) : (pySorted l).Nodup :=
  (List.perm_insertionSort _ l).symm.nodup h

/-! ### Claim C9 -/

/-- C9: for every choice of the `removeExact`, `removeContaining` and
`addTags` arguments, `clean_and_edit_tags` applied to an empty or
whitespace-only input returns the empty string; the additions are never
applied to an empty source. -/
theorem clean_and_edit_empty_input (text : Str) (removeTags removeContaining addTags : List Str)
    (h : (pystrip text).isEmpty = true) :
    clean_and_edit_tags text removeTags removeContaining addTags = [] := by
  unfold clean_and_edit_tags
  simp [h]

/-- Witness for C9: the whitespace-only input `" "` with a non-empty
`addTags` yields the empty string. -/
theorem clean_and_edit_empty_input_witness :
    (pystrip [' ']).isEmpty = true ∧ clean_and_edit_tags [' '] [] [] [['x']] = [] :=
  ⟨by decide, clean_and_edit_empty_input [' '] [] [] [['x']] (by decide)⟩

/-! ### Claim C8 -/

/-- C8: `scan_and_match_files` fails with the not-found error exactly when
the folder path does not exist, and in that case the composite pipeline
returns the filesystem unchanged (the scanner itself is read-only by
construction) with a failed outcome. -/
theorem scan_notFound_iff (fs : FS) (folder : Str) :
    (scan_and_match_files fs folder = .error .notFound ↔ fsExists fs folder = false) ∧
      (fsExists fs folder = false →
        (auto_post_process fs folder).1 = fs ∧
          (auto_post_process fs folder).2.success = false) := by
  constructor
  · constructor
    · intro h
      by_cases he : fsExists fs folder
      · exfalso
        unfold scan_and_match_files at h
        simp only [he, Bool.not_true, Bool.false_eq_true, if_false] at h
        rcases Classical.em (folder ∈ fs.dirs) with hd | hd <;> simp [hd] at h
      · simpa using he
    · intro h
      unfold scan_and_match_files
      simp [h]
  · intro h
    have hscan : scan_and_match_files fs folder = .error .notFound := by
      unfold scan_and_match_files
      simp [h]
    unfold auto_post_process
    rw [hscan]
    exact ⟨rfl, rfl⟩

/-- Witness for C8: a filesystem with no entries at all, and the folder
`F`: the scan errors and the pipeline leaves the filesystem untouched. -/
theorem scan_notFound_iff_witness :
    fsExists ⟨[], []⟩ ['F'] = false ∧
      (auto_post_process ⟨[], []⟩ ['F']).1 = (⟨[], []⟩ : FS) ∧
        (auto_post_process ⟨[], []⟩ ['F']).2.success = false :=
  ⟨by decide, (scan_notFound_iff ⟨[], []⟩ ['F']).2 (by decide)⟩

/-! ### Scanner lemmas -/

lemma matchImage_image (folder : Str) (texts : List Str) (img : Str) :
    (matchImage folder texts img).image_path = some (pjoin folder img) := by
  unfold matchImage
  by_cases h1 : ((splitext img).1 ++ txtSuffix) ∈ texts
  · simp [h1]
  · by_cases h2 : (img ++ txtSuffix) ∈ texts <;> simp [h1, h2]

lemma matchImage_text_cases {folder : Str} {texts : List Str} {img c : Str}
    (h : (matchImage folder texts img).text_path = some c) :
    c = pjoin folder ((splitext img).1 ++ txtSuffix) ∨ c = pjoin folder (img ++ txtSuffix) := by
  unfold matchImage at h
  by_cases h1 : ((splitext img).1 ++ txtSuffix) ∈ texts
  · simp only [h1, if_true] at h
    exact Or.inl (Option.some_injective _ h).symm
  · by_cases h2 : (img ++ txtSuffix) ∈ texts
    · simp only [h1, h2, if_true, if_false] at h
      exact Or.inr (Option.some_injective _ h).symm
    · simp [h1, h2] at h

lemma mem_texts_iff {files : List Str} {t : Str} :
    t ∈ pySorted (files.filter endsTxt) ↔ t ∈ files ∧ endsTxt t = true := by
  rw [mem_pySorted, List.mem_filter]

lemma mem_images_iff {files : List Str} {i : Str} :
    i ∈ pySorted (files.filter isImage) ↔ i ∈ files ∧ isImage i = true := by
  rw [mem_pySorted, List.mem_filter]

/-! ### Claim C5 -/

/-- C5: when both the sibling-stem caption `base + '.txt'` and the
full-name caption `img + '.txt'` are present, the scanner pairs the image
with the sibling-stem caption — candidate A has fixed priority.  (The
full-name caption need not even be present: candidate A wins whenever it
exists.) -/
theorem scan_priority_sibling_stem (folder : Str) (files : List Str) (img : Str)
    (himg : img ∈ files) (hisimg : isImage img = true)
    (ht1 : ((splitext img).1 ++ txtSuffix) ∈ files) :
    ∀ r ∈ (scan_core folder files).1, r.image_path = some (pjoin folder img) →
      r.text_path = some (pjoin folder ((splitext img).1 ++ txtSuffix)) := by
  intro r hr hrimg
  unfold scan_core at hr
  simp only [List.mem_map] at hr
  obtain ⟨img', hmem', rfl⟩ := hr
  have himg' : img' = img := by
    have := matchImage_image folder (pySorted (files.filter endsTxt)) img'
    rw [hrimg] at this
    exact pjoin_inj (Option.some_injective _ this).symm
  subst himg'
  have ht1' : ((splitext img').1 ++ txtSuffix) ∈ pySorted (files.filter endsTxt) :=
    mem_texts_iff.mpr ⟨ht1, endsTxt_append_suffix _⟩
  unfold matchImage
  simp [ht1']

/-- Witness for C5: with `a.png`, `a.txt` and `a.png.txt` all present, the
record for `a.png` is paired with `F/a.txt`. -/
theorem scan_priority_sibling_stem_witness :
    ({ image_path := some ['F', '/', 'a', '.', 'p', 'n', 'g'],
       text_path := some ['F', '/', 'a', '.', 't', 'x', 't'],
       base_name := ['a'], is_paired := true } : FileInfo).text_path =
      some (pjoin ['F'] ((splitext ['a', '.', 'p', 'n', 'g']).1 ++ txtSuffix)) := by
  have h := scan_priority_sibling_stem ['F']
    [['a', '.', 'p', 'n', 'g'], ['a', '.', 't', 'x', 't'],
     ['a', '.', 'p', 'n', 'g', '.', 't', 'x', 't']]
    ['a', '.', 'p', 'n', 'g'] (by decide) (by decide) (by decide)
  exact h ({ image_path := some ['F', '/', 'a', '.', 'p', 'n', 'g'],
             text_path := some ['F', '/', 'a', '.', 't', 'x', 't'],
             base_name := ['a'], is_paired := true } : FileInfo) (by decide) (by decide)

/-! ### Claim C2 -/

/-- Counterexample to C2 as stated: in a folder containing `a.jpg`,
`a.png` and `a.txt` (a duplicate-free, slash-free listing), the scanner
assigns the single caption `F/a.txt` as `text_path` of BOTH image records,
so a caption can be consumed by two image records. -/
theorem scan_caption_shared_counterexample :
    ([['a', '.', 'j', 'p', 'g'], ['a', '.', 'p', 'n', 'g'], ['a', '.', 't', 'x', 't']] :
        List Str).Nodup ∧
      ((scan_core ['F'] [['a', '.', 'j', 'p', 'g'], ['a', '.', 'p', 'n', 'g'],
          ['a', '.', 't', 'x', 't']]).1.map FileInfo.text_path) =
        [some ['F', '/', 'a', '.', 't', 'x', 't'], some ['F', '/', 'a', '.', 't', 'x', 't']] := by
  constructor
  · decide
  · decide

/-- C2, amended: provided the listing is duplicate-free, every image
appears in exactly one of the paired / unpaired classifications — with no
further proviso, so this half also covers shared-stem folders such as the
counterexample's `a.jpg, a.png, a.txt`; and each caption is consumed by at
most one image record PROVIDED additionally that distinct images have
distinct stems and no image's stem equals another image's full filename.
(Without that extra proviso a caption can be consumed by several records,
as `scan_caption_shared_counterexample` shows.) -/
theorem scan_partition_and_unique_consumption (folder : Str) (files : List Str)
    (hnd : files.Nodup) :
    (∀ img ∈ files, isImage img = true →
        (scan_core folder files).1.countP
            (fun r => decide (r.image_path = some (pjoin folder img)) && r.is_paired) +
          (scan_core folder files).1.countP
            (fun r => decide (r.image_path = some (pjoin folder img)) && !r.is_paired) = 1) ∧
      ((∀ i1 ∈ files, ∀ i2 ∈ files, isImage i1 = true → isImage i2 = true → i1 ≠ i2 →
          (splitext i1).1 ≠ (splitext i2).1 ∧ (splitext i1).1 ≠ i2) →
        ∀ r1 ∈ (scan_core folder files).1, ∀ r2 ∈ (scan_core folder files).1, ∀ c : Str,
          r1.text_path = some c → r2.text_path = some c → r1 = r2) := by
  have himgs_nodup : (pySorted (files.filter isImage)).Nodup :=
    pySorted_nodup (hnd.filter _)
  have hrec : (scan_core folder files).1 =
      (pySorted (files.filter isImage)).map
        (matchImage folder (pySorted (files.filter endsTxt))) := rfl
  rw [and_comm]
  constructor
  · intro hstem r1 hr1 r2 hr2 c hc1 hc2
    rw [hrec] at hr1 hr2
    obtain ⟨i1, hm1, rfl⟩ := List.mem_map.mp hr1
    obtain ⟨i2, hm2, rfl⟩ := List.mem_map.mp hr2
    by_cases hne : i1 = i2
    · rw [hne]
    · exfalso
      have hf1 : i1 ∈ files ∧ isImage i1 = true := mem_images_iff.mp hm1
      have hf2 : i2 ∈ files ∧ isImage i2 = true := mem_images_iff.mp hm2
      have hforbid := hstem i1 hf1.1 i2 hf2.1 hf1.2 hf2.2 hne
      have hforbid' := hstem i2 hf2.1 i1 hf1.1 hf2.2 hf1.2 (Ne.symm hne)
      rcases matchImage_text_cases hc1 with h1 | h1 <;>
        rcases matchImage_text_cases hc2 with h2 | h2
      · exact hforbid.1 (List.append_cancel_right (pjoin_inj (h1.symm.trans h2)))
      · exact hforbid.2 (List.append_cancel_right (pjoin_inj (h1.symm.trans h2)))
      · exact hforbid'.2 (List.append_cancel_right (pjoin_inj (h2.symm.trans h1)))
      · exact hne (List.append_cancel_right (pjoin_inj (h1.symm.trans h2)))
  · intro img hmem hisimg
    rw [hrec, List.countP_map, List.countP_map]
    have hd : ∀ i : Str,
        (decide ((matchImage folder (pySorted (files.filter endsTxt)) i).image_path =
          some (pjoin folder img))) = decide (i = img) := by
      intro i
      rw [matchImage_image]
      apply decide_eq_decide.mpr
      constructor
      · intro h
        exact pjoin_inj (Option.some_injective _ h)
      · intro h
        rw [h]
    have hc1 : ((pySorted (files.filter isImage)).countP
        ((fun r => decide (r.image_path = some (pjoin folder img)) && r.is_paired) ∘
          matchImage folder (pySorted (files.filter endsTxt)))) =
        ((pySorted (files.filter isImage)).countP
          (fun i => decide (i = img) &&
            (matchImage folder (pySorted (files.filter endsTxt)) i).is_paired)) := by
      apply List.countP_congr
      intro i _
      simp only [Function.comp_apply]
      rw [hd i]
    have hc2 : ((pySorted (files.filter isImage)).countP
        ((fun r => decide (r.image_path = some (pjoin folder img)) && !r.is_paired) ∘
          matchImage folder (pySorted (files.filter endsTxt)))) =
        ((pySorted (files.filter isImage)).countP
          (fun i => decide (i = img) &&
            !(matchImage folder (pySorted (files.filter endsTxt)) i).is_paired)) := by
      apply List.countP_congr
      intro i _
      simp only [Function.comp_apply]
      rw [hd i]
    rw [hc1, hc2, countP_and_not_and]
    exact countP_eq_one_of_nodup himgs_nodup (mem_images_iff.mpr ⟨hmem, hisimg⟩)

/-- Witness for C2 (amended): in the shared-stem folder `a.jpg, a.png,
a.txt` of the counterexample — where the caption-uniqueness proviso fails —
the partition half still applies: the image `a.png` is classified exactly
once, under duplicate-freeness alone. -/
theorem scan_partition_and_unique_consumption_witness :
    (scan_core ['F'] [['a', '.', 'j', 'p', 'g'], ['a', '.', 'p', 'n', 'g'],
        ['a', '.', 't', 'x', 't']]).1.countP
        (fun r => decide (r.image_path = some (pjoin ['F'] ['a', '.', 'p', 'n', 'g'])) &&
          r.is_paired) +
      (scan_core ['F'] [['a', '.', 'j', 'p', 'g'], ['a', '.', 'p', 'n', 'g'],
        ['a', '.', 't', 'x', 't']]).1.countP
        (fun r => decide (r.image_path = some (pjoin ['F'] ['a', '.', 'p', 'n', 'g'])) &&
          !r.is_paired) = 1 :=
  (scan_partition_and_unique_consumption ['F']
    [['a', '.', 'j', 'p', 'g'], ['a', '.', 'p', 'n', 'g'], ['a', '.', 't', 'x', 't']]
    (by decide)).1 ['a', '.', 'p', 'n', 'g'] (by decide) (by decide)

/-! ### Claim C7 -/

/-- C7: every operation returning a `ProcessResult` — rename,
standardization, manual tag edit, unpaired handling and the composite
automatic post-process — reports `success = true` exactly when its error
list is empty. -/
theorem success_iff_no_errors :
    (∀ (fs : FS) (folder : Str) (infos : List FileInfo),
        (rename_files fs folder infos).2.success = true ↔
          (rename_files fs folder infos).2.errors = []) ∧
      (∀ (fs : FS) (folder : Str) (infos : List FileInfo),
        (standardize_tags fs folder infos).2.success = true ↔
          (standardize_tags fs folder infos).2.errors = []) ∧
      (∀ (fs : FS) (folder : Str) (unpaired : List Str),
        (handle_unpaired_files fs folder unpaired).2.success = true ↔
          (handle_unpaired_files fs folder unpaired).2.errors = []) ∧
      (∀ (fs : FS) (folder : Str) (removeTags removeContaining addIter : List Str),
        (manual_tag_process fs folder removeTags removeContaining addIter).2.success = true ↔
          (manual_tag_process fs folder removeTags removeContaining addIter).2.errors = []) ∧
      (∀ (fs : FS) (folder : Str),
        (auto_post_process fs folder).2.success = true ↔
          (auto_post_process fs folder).2.errors = []) := by
  refine ⟨?_, ?_, ?_, ?_, ?_⟩
  · intro fs folder infos
    simp [rename_files]
  · intro fs folder infos
    simp [standardize_tags]
  · intro fs folder unpaired
    by_cases h : unpaired.isEmpty <;> simp [handle_unpaired_files, h]
  · intro fs folder removeTags removeContaining addIter
    by_cases h : folder ∈ fs.dirs <;> simp [manual_tag_process, h]
  · intro fs folder
    unfold auto_post_process
    rcases hscan : scan_and_match_files fs folder with e | pr
    · simp
    · rcases hscan2 : scan_and_match_files
          (rename_files (handle_unpaired_files fs folder pr.2).1 folder pr.1).1 folder with
        e2 | pr2
      · simp [hscan2]
      · simp [hscan2]

/-! ### Decimal string lemmas -/

lemma digitChar_isDigit (d : Nat) : isDigitCh (digitChar d) = true := by
  unfold digitChar
  rcases d with _ | _ | _ | _ | _ | _ | _ | _ | _ | d <;> rfl

lemma natToStr_ne_nil (n : Nat) : natToStr n ≠ [] := by
  unfold natToStr natToStrAux
  by_cases h10 : n < 10 <;> simp [h10]

lemma natToStrAux_digits : ∀ fuel n, n < fuel → ∀ c ∈ natToStrAux fuel n, isDigitCh c = true := by
  intro fuel
  induction fuel with
  | zero => intro n h; omega
  | succ f ih =>
    intro n h c hc
    unfold natToStrAux at hc
    by_cases h10 : n < 10
    · simp only [h10, if_true, List.mem_singleton] at hc
      subst hc
      exact digitChar_isDigit n
    · simp only [h10, if_false, List.mem_append, List.mem_singleton] at hc
      rcases hc with hc | hc
      · have hdiv : n / 10 < f := by
          have := Nat.div_lt_self (by omega : 0 < n) (by norm_num : (1 : Nat) < 10)
          omega
        exact ih (n / 10) hdiv c hc
      · subst hc
        exact digitChar_isDigit _

lemma natToStr_digits (n : Nat) : ∀ c ∈ natToStr n, isDigitCh c = true :=
  natToStrAux_digits (n + 1) n (Nat.lt_succ_self n)

lemma digitChar_val (d : Nat) (h : d < 10) : (digitChar d).toNat - 48 = d := by
  interval_cases d <;> decide

lemma natToStrAux_strVal : ∀ fuel n, n < fuel → strVal (natToStrAux fuel n) = n := by
  intro fuel
  induction fuel with
  | zero => intro n h; omega
  | succ f ih =>
    intro n h
    unfold natToStrAux
    by_cases h10 : n < 10
    · simp only [h10, if_true]
      unfold strVal
      simp only [List.foldl_cons, List.foldl_nil, Nat.mul_zero, Nat.zero_add]
      exact digitChar_val n h10
    · simp only [h10, if_false]
      unfold strVal
      rw [List.foldl_append]
      have hdiv : n / 10 < f := by
        have := Nat.div_lt_self (by omega : 0 < n) (by norm_num : (1 : Nat) < 10)
        omega
      have hrec := ih (n / 10) hdiv
      unfold strVal at hrec
      rw [hrec]
      simp only [List.foldl_cons, List.foldl_nil]
      rw [digitChar_val (n % 10) (Nat.mod_lt _ (by norm_num))]
      omega

lemma natToStr_inj {a b : Nat} (h : natToStr a = natToStr b) : a = b := by
  have ha := natToStrAux_strVal (a + 1) a (Nat.lt_succ_self a)
  have hb := natToStrAux_strVal (b + 1) b (Nat.lt_succ_self b)
  unfold natToStr at h
  rw [h] at ha
  exact ha.symm.trans hb

lemma digits_append_uniq : ∀ a b e f : Str,
    (∀ c ∈ a, isDigitCh c = true) → (∀ c ∈ b, isDigitCh c = true) →
    (e = [] ∨ ∃ r, e = '.' :: r) → (f = [] ∨ ∃ r, f = '.' :: r) →
    a ++ e = b ++ f → a = b := by
  intro a
  induction a with
  | nil =>
    intro b e f _ hb he _ heq
    cases b with
    | nil => rfl
    | cons y b' =>
      exfalso
      rcases he with rfl | ⟨r, rfl⟩
      · simp at heq
      · have hy := hb y (List.mem_cons_self _ _)
        injection heq with h1 h2
        rw [← h1] at hy
        exact absurd hy (by decide)
  | cons x a' ih =>
    intro b e f ha hb he hf heq
    cases b with
    | nil =>
      exfalso
      rcases hf with rfl | ⟨r, rfl⟩
      · simp at heq
      · have hx := ha x (List.mem_cons_self _ _)
        injection heq with h1 h2
        rw [h1] at hx
        exact absurd hx (by decide)
    | cons y b' =>
      injection heq with h1 h2
      rw [h1, ih b' e f (fun c hc => ha c (List.mem_cons_of_mem _ hc))
        (fun c hc => hb c (List.mem_cons_of_mem _ hc)) he hf h2]

lemma tempName_inj {i j : Nat} {e f : Str}
    (he : e = [] ∨ ∃ r, e = '.' :: r) (hf : f = [] ∨ ∃ r, f = '.' :: r)
    (h : tempName i e = tempName j f) : i = j ∧ e = f := by
  unfold tempName at h
  rw [List.append_assoc, List.append_assoc] at h
  have h2 : natToStr i ++ e = natToStr j ++ f := List.append_cancel_left h
  have hij : natToStr i = natToStr j :=
    digits_append_uniq _ _ _ _ (natToStr_digits i) (natToStr_digits j) he hf h2
  refine ⟨natToStr_inj hij, ?_⟩
  rw [hij] at h2
  exact List.append_cancel_left h2

lemma tempName_ne_finalName (i j : Nat) (e f : Str) : tempName i e ≠ finalName j f := by
  intro h
  unfold tempName finalName at h
  obtain ⟨c, rest, hc⟩ : ∃ c rest, natToStr j = c :: rest := by
    cases hnn : natToStr j with
    | nil => exact absurd hnn (natToStr_ne_nil j)
    | cons c rest => exact ⟨c, rest, rfl⟩
  rw [hc] at h
  injection h with h1 h2
  have hd := natToStr_digits j c (by rw [hc]; exact List.mem_cons_self _ _)
  rw [← h1] at hd
  exact absurd hd (by decide)

/-! ### Rename plan lemmas -/

lemma splitext_ext_shape (p : Str) :
    (splitext p).2 = [] ∨ ∃ r, (splitext p).2 = '.' :: r := by
  unfold splitext
  split
  · exact Or.inl rfl
  · split
    · exact Or.inl rfl
    · exact Or.inr ⟨_, rfl⟩

lemma runOps_fst_append (fs : FS) (a b : List (Str × Str)) :
    (runOps fs (a ++ b)).1 = (runOps (runOps fs a).1 b).1 := by
  induction a generalizing fs with
  | nil => rfl
  | cons op rest ih =>
    obtain ⟨s, d⟩ := op
    cases h : os_rename fs s d <;> simp [runOps, h, ih]

lemma planRecord_dst_shape {folder : Str} {n : Nat} {info : FileInfo} {pr : Str × Str}
    (hmem : pr ∈ (planRecord folder n info).1) :
    ∃ e, (e = [] ∨ ∃ r, e = '.' :: r) ∧ pr.2 = pjoin folder (tempName n e) := by
  unfold planRecord at hmem
  cases hi : truthyPath info.image_path with
  | none =>
    cases ht : truthyPath info.text_path with
    | none => rw [hi, ht] at hmem; simp at hmem
    | some p =>
      rw [hi, ht] at hmem
      simp only [List.nil_append, List.mem_singleton] at hmem
      subst hmem
      exact ⟨txtSuffix, Or.inr ⟨['t', 'x', 't'], rfl⟩, rfl⟩
  | some p =>
    cases ht : truthyPath info.text_path with
    | none =>
      rw [hi, ht] at hmem
      simp only [List.append_nil, List.mem_singleton] at hmem
      subst hmem
      exact ⟨(splitext p).2, splitext_ext_shape p, rfl⟩
    | some q =>
      rw [hi, ht] at hmem
      simp only [List.cons_append, List.nil_append, List.mem_cons, List.not_mem_nil,
        or_false] at hmem
      rcases hmem with hmem | hmem <;> subst hmem
      · exact ⟨(splitext p).2, splitext_ext_shape p, rfl⟩
      · exact ⟨txtSuffix, Or.inr ⟨['t', 'x', 't'], rfl⟩, rfl⟩

lemma buildPlan_dst_shape {folder : Str} :
    ∀ (infos : List FileInfo) (n : Nat) (pr : Str × Str),
      pr ∈ (buildPlan folder n infos).1 →
      ∃ m e, n ≤ m ∧ (e = [] ∨ ∃ r, e = '.' :: r) ∧ pr.2 = pjoin folder (tempName m e) := by
  intro infos
  induction infos with
  | nil => intro n pr h; simp [buildPlan] at h
  | cons info rest ih =>
    intro n pr h
    unfold buildPlan at h
    rcases List.mem_append.mp h with h | h
    · obtain ⟨e, he, hpr⟩ := planRecord_dst_shape h
      exact ⟨n, e, le_refl n, he, hpr⟩
    · obtain ⟨m, e, hm, he, hpr⟩ := ih (n + 1) pr h
      exact ⟨m, e, by omega, he, hpr⟩

lemma planRecord_dsts_nodup {folder : Str} {n : Nat} {info : FileInfo}
    (hext : ∀ p, truthyPath info.image_path = some p → (splitext p).2 ≠ txtSuffix) :
    ((planRecord folder n info).1.map Prod.snd).Nodup := by
  unfold planRecord
  cases hi : truthyPath info.image_path with
  | none =>
    cases ht : truthyPath info.text_path with
    | none => simp
    | some p => simp
  | some p =>
    cases ht : truthyPath info.text_path with
    | none => simp
    | some q =>
      simp only [List.cons_append, List.nil_append, List.map_cons, List.map_nil,
        List.nodup_cons, List.mem_singleton, List.nodup_nil, and_true, List.not_mem_nil,
        List.mem_cons]
      refine ⟨?_, not_false⟩
      intro hcontra
      rcases hcontra with hcontra | hcontra
      · have h1 := pjoin_inj hcontra
        have h2 := (tempName_inj (splitext_ext_shape p)
          (Or.inr ⟨['t', 'x', 't'], rfl⟩) h1).2
        exact hext p hi h2
      · exact hcontra

lemma planRecord_dst2_shape {folder : Str} {n : Nat} {info : FileInfo} {pr : Str × Str}
    (hmem : pr ∈ (planRecord folder n info).2) :
    ∃ m e, pr.2 = pjoin folder (finalName m e) := by
  unfold planRecord at hmem
  cases hi : truthyPath info.image_path with
  | none =>
    cases ht : truthyPath info.text_path with
    | none => rw [hi, ht] at hmem; simp at hmem
    | some p =>
      rw [hi, ht] at hmem
      simp only [List.nil_append, List.mem_singleton] at hmem
      exact ⟨n, txtSuffix, by rw [hmem]⟩
  | some p =>
    cases ht : truthyPath info.text_path with
    | none =>
      rw [hi, ht] at hmem
      simp only [List.append_nil, List.mem_singleton] at hmem
      exact ⟨n, (splitext p).2, by rw [hmem]⟩
    | some q =>
      rw [hi, ht] at hmem
      simp only [List.cons_append, List.nil_append, List.mem_cons, List.not_mem_nil,
        or_false] at hmem
      rcases hmem with hmem | hmem
      · exact ⟨n, (splitext p).2, by rw [hmem]⟩
      · exact ⟨n, txtSuffix, by rw [hmem]⟩

lemma buildPlan_dst2_shape {folder : Str} :
    ∀ (infos : List FileInfo) (n : Nat) (pr : Str × Str),
      pr ∈ (buildPlan folder n infos).2 →
      ∃ m e, pr.2 = pjoin folder (finalName m e) := by
  intro infos
  induction infos with
  | nil => intro n pr h; simp [buildPlan] at h
  | cons info rest ih =>
    intro n pr h
    unfold buildPlan at h
    rcases List.mem_append.mp h with h | h
    · exact planRecord_dst2_shape h
    · exact ih (n + 1) pr h

lemma buildPlan_dsts_nodup {folder : Str} :
    ∀ (infos : List FileInfo) (n : Nat),
      (∀ info ∈ infos, ∀ p, truthyPath info.image_path = some p →
        (splitext p).2 ≠ txtSuffix) →
      ((buildPlan folder n infos).1.map Prod.snd).Nodup := by
  intro infos
  induction infos with
  | nil => intro n _; simp [buildPlan]
  | cons info rest ih =>
    intro n hext
    unfold buildPlan
    rw [List.map_append, List.nodup_append]
    refine ⟨planRecord_dsts_nodup (hext info (List.mem_cons_self _ _)),
      ih (n + 1) (fun i hi => hext i (List.mem_cons_of_mem _ hi)), ?_⟩
    intro d hd1 hd2
    obtain ⟨pr1, hpr1, rfl⟩ := List.mem_map.mp hd1
    obtain ⟨pr2, hpr2, heq⟩ := List.mem_map.mp hd2
    obtain ⟨e1, he1, hd1'⟩ := planRecord_dst_shape hpr1
    obtain ⟨m, e2, hm, he2, hd2'⟩ := buildPlan_dst_shape rest (n + 1) pr2 hpr2
    rw [hd1'] at heq
    rw [hd2'] at heq
    have := (tempName_inj he2 he1 (pjoin_inj heq)).1
    omega

lemma buildPlan_mem_record {folder : Str} :
    ∀ (infos : List FileInfo) (n i : Nat) (h : i < infos.length),
      (∀ p, truthyPath (infos.get ⟨i, h⟩).image_path = some p →
        ((p, pjoin folder (tempName (n + i) (splitext p).2)) ∈ (buildPlan folder n infos).1 ∧
          (pjoin folder (tempName (n + i) (splitext p).2),
            pjoin folder (finalName (n + i) (splitext p).2)) ∈ (buildPlan folder n infos).2)) ∧
      (∀ p, truthyPath (infos.get ⟨i, h⟩).text_path = some p →
        ((p, pjoin folder (tempName (n + i) txtSuffix)) ∈ (buildPlan folder n infos).1 ∧
          (pjoin folder (tempName (n + i) txtSuffix),
            pjoin folder (finalName (n + i) txtSuffix)) ∈ (buildPlan folder n infos).2)) := by
  intro infos
  induction infos with
  | nil => intro n i h; exact absurd h (by simp)
  | cons info rest ih =>
    intro n i h
    cases i with
    | zero =>
      constructor
      · intro p hp
        have hp' : truthyPath info.image_path = some p := hp
        unfold buildPlan planRecord
        rw [hp']
        cases ht : truthyPath info.text_path <;>
          simp [Nat.add_zero, List.mem_append]
      · intro p hp
        have hp' : truthyPath info.text_path = some p := hp
        unfold buildPlan planRecord
        rw [hp']
        cases hi : truthyPath info.image_path <;>
          simp [Nat.add_zero, List.mem_append]
    | succ i =>
      have h' : i < rest.length := by
        simpa using h
      have hrec := ih (n + 1) i h'
      have hn : n + (i + 1) = (n + 1) + i := by omega
      constructor
      · intro p hp
        have hp' : truthyPath (rest.get ⟨i, h'⟩).image_path = some p := hp
        have hm := hrec.1 p hp'
        rw [hn]
        unfold buildPlan
        exact ⟨List.mem_append_right _ hm.1, List.mem_append_right _ hm.2⟩
      · intro p hp
        have hp' : truthyPath (rest.get ⟨i, h'⟩).text_path = some p := hp
        have hm := hrec.2 p hp'
        rw [hn]
        unfold buildPlan
        exact ⟨List.mem_append_right _ hm.1, List.mem_append_right _ hm.2⟩

/-! ### Claim C3 -/

/-- Counterexample to C3 as stated: for a record whose caption file is
`F/x.caption`, the Phase-2 rename sends the caption to `F/1.txt`, not to
`F/1.caption` — the caption does NOT keep its own extension (the source
hard-codes `.txt` for caption files). -/
theorem rename_caption_extension_counterexample :
    ((buildPlan ['F'] 1
        [{ image_path := some ['F', '/', 'a', '.', 'j', 'p', 'g'],
           text_path := some ['F', '/', 'x', '.', 'c', 'a', 'p', 't', 'i', 'o', 'n'],
           base_name := ['a'], is_paired := true }]).2.map Prod.snd =
      [['F', '/', '1', '.', 'j', 'p', 'g'], ['F', '/', '1', '.', 't', 'x', 't']]) ∧
      ['F', '/', '1', '.', 'c', 'a', 'p', 't', 'i', 'o', 'n'] ∉
        ((buildPlan ['F'] 1
          [{ image_path := some ['F', '/', 'a', '.', 'j', 'p', 'g'],
             text_path := some ['F', '/', 'x', '.', 'c', 'a', 'p', 't', 'i', 'o', 'n'],
             base_name := ['a'], is_paired := true }]).2.map Prod.snd) := by
  exact ⟨by decide, by decide⟩

/-- C3, amended: `rename_files` executes all Phase-1 renames before any
Phase-2 rename (its filesystem effect is that of running the concatenated
Phase-1-then-Phase-2 schedule), and the record at position `i` receives
numeric stem `start + i` with `start = rename_start_index = 1` for both
its image and, when present, its caption; the image keeps its own
extension, while the renamed caption always gets extension `.txt`
(which coincides with its own extension for scanner-produced records). -/
theorem rename_two_phase_and_indices (fs : FS) (folder : Str) (infos : List FileInfo) :
    ((rename_files fs folder infos).1 =
      execRenames fs ((buildPlan folder rename_start_index infos).1 ++
        (buildPlan folder rename_start_index infos).2)) ∧
      (∀ (i : Nat) (h : i < infos.length),
        (∀ p, truthyPath (infos.get ⟨i, h⟩).image_path = some p →
          (p, pjoin folder (tempName (rename_start_index + i) (splitext p).2)) ∈
              (buildPlan folder rename_start_index infos).1 ∧
            (pjoin folder (tempName (rename_start_index + i) (splitext p).2),
              pjoin folder (finalName (rename_start_index + i) (splitext p).2)) ∈
              (buildPlan folder rename_start_index infos).2) ∧
        (∀ p, truthyPath (infos.get ⟨i, h⟩).text_path = some p →
          (p, pjoin folder (tempName (rename_start_index + i) txtSuffix)) ∈
              (buildPlan folder rename_start_index infos).1 ∧
            (pjoin folder (tempName (rename_start_index + i) txtSuffix),
              pjoin folder (finalName (rename_start_index + i) txtSuffix)) ∈
              (buildPlan folder rename_start_index infos).2)) := by
  constructor
  · show (runOps (runOps fs (buildPlan folder rename_start_index infos).1).1
        (buildPlan folder rename_start_index infos).2).1 = _
    unfold execRenames
    rw [runOps_fst_append]
  · intro i h
    exact buildPlan_mem_record infos rename_start_index i h

/-- Witness for C3 (amended): the single record with image `F/a.jpg` gets
the Phase-1 pair for numeric index `1 + 0`. -/
theorem rename_two_phase_and_indices_witness :
    (['F', '/', 'a', '.', 'j', 'p', 'g'],
        pjoin ['F'] (tempName (rename_start_index + 0)
          (splitext ['F', '/', 'a', '.', 'j', 'p', 'g']).2)) ∈
      (buildPlan ['F'] rename_start_index
        [{ image_path := some ['F', '/', 'a', '.', 'j', 'p', 'g'] }]).1 := by
  have h := (rename_two_phase_and_indices ⟨[], []⟩ ['F']
    [{ image_path := some ['F', '/', 'a', '.', 'j', 'p', 'g'] }]).2 0 (by decide)
  exact (h.1 ['F', '/', 'a', '.', 'j', 'p', 'g'] (by decide)).1

/-! ### Claim C4 -/

/-- Counterexample to C4 as stated: with a file literally named
`F/temp_1.jpg` already present in the dataset folder, the Phase-1
temporary name of the first record collides with it and the Phase-1 rename
silently overwrites it (POSIX rename), destroying its content (`binary 2`)
while reporting full success. -/
theorem rename_temp_collision_counterexample :
    ((buildPlan ['F'] 1 [{ image_path := some ['F', '/', 'a', '.', 'j', 'p', 'g'] }]).1.map
        Prod.snd = [['F', '/', 't', 'e', 'm', 'p', '_', '1', '.', 'j', 'p', 'g']]) ∧
      fsGet ⟨[(['F', '/', 'a', '.', 'j', 'p', 'g'], .binary 1),
          (['F', '/', 't', 'e', 'm', 'p', '_', '1', '.', 'j', 'p', 'g'], .binary 2)], [['F']]⟩
        ['F', '/', 't', 'e', 'm', 'p', '_', '1', '.', 'j', 'p', 'g'] = some (.binary 2) ∧
      rename_files ⟨[(['F', '/', 'a', '.', 'j', 'p', 'g'], .binary 1),
          (['F', '/', 't', 'e', 'm', 'p', '_', '1', '.', 'j', 'p', 'g'], .binary 2)], [['F']]⟩
        ['F'] [{ image_path := some ['F', '/', 'a', '.', 'j', 'p', 'g'] }] =
        (⟨[(['F', '/', '1', '.', 'j', 'p', 'g'], .binary 1)], [['F']]⟩,
          { success := true, renamed_files := 1 }) := by
  exact ⟨by decide, by decide, by decide⟩

/-- C4, amended: the temporary names of a batch cannot collide with each
other (they are pairwise distinct, provided no record presents an image
whose extension is literally `.txt`) nor with any Phase-2 final numeric
name; but they CAN collide with a pre-existing file whose name already
matches the `temp_<index><ext>` pattern, and in that case the Phase-1
rename silently overwrites that file. -/
theorem rename_temp_names_amended (folder : Str) (infos : List FileInfo)
    (hext : ∀ info ∈ infos, ∀ p, truthyPath info.image_path = some p →
      (splitext p).2 ≠ txtSuffix) :
    ((buildPlan folder rename_start_index infos).1.map Prod.snd).Nodup ∧
      ∀ d ∈ (buildPlan folder rename_start_index infos).1.map Prod.snd,
        d ∉ (buildPlan folder rename_start_index infos).2.map Prod.snd := by
  refine ⟨buildPlan_dsts_nodup infos rename_start_index hext, ?_⟩
  intro d hd1 hd2
  obtain ⟨pr1, hpr1, rfl⟩ := List.mem_map.mp hd1
  obtain ⟨pr2, hpr2, heq⟩ := List.mem_map.mp hd2
  obtain ⟨m1, e1, _, _, hs1⟩ := buildPlan_dst_shape infos rename_start_index pr1 hpr1
  obtain ⟨m2, e2, hs2⟩ := buildPlan_dst2_shape infos rename_start_index pr2 hpr2
  rw [hs1, hs2] at heq
  exact tempName_ne_finalName m1 m2 e1 e2 (pjoin_inj heq.symm)

/-- Witness for C4 (amended): a two-record batch (a paired `a.jpg` and an
unpaired `b.png`) has pairwise distinct temporary names, and the first
temporary name is not among the final names. -/
theorem rename_temp_names_amended_witness :
    ((buildPlan ['F'] rename_start_index
        [{ image_path := some ['F', '/', 'a', '.', 'j', 'p', 'g'],
           text_path := some ['F', '/', 'a', '.', 't', 'x', 't'],
           base_name := ['a'], is_paired := true },
         { image_path := some ['F', '/', 'b', '.', 'p', 'n', 'g'],
           base_name := ['b'] }]).1.map Prod.snd).Nodup ∧
      ['F', '/', 't', 'e', 'm', 'p', '_', '1', '.', 'j', 'p', 'g'] ∉
        (buildPlan ['F'] rename_start_index
          [{ image_path := some ['F', '/', 'a', '.', 'j', 'p', 'g'],
             text_path := some ['F', '/', 'a', '.', 't', 'x', 't'],
             base_name := ['a'], is_paired := true },
           { image_path := some ['F', '/', 'b', '.', 'p', 'n', 'g'],
             base_name := ['b'] }]).2.map Prod.snd := by
  have hext : ∀ info ∈ [({ image_path := some ['F', '/', 'a', '.', 'j', 'p', 'g'],
                           text_path := some ['F', '/', 'a', '.', 't', 'x', 't'],
                           base_name := ['a'], is_paired := true } : FileInfo),
      ({ image_path := some ['F', '/', 'b', '.', 'p', 'n', 'g'],
         base_name := ['b'] } : FileInfo)],
      ∀ p, truthyPath info.image_path = some p → (splitext p).2 ≠ txtSuffix := by
    intro info hinfo p hp
    simp only [List.mem_cons, List.not_mem_nil, or_false] at hinfo
    rcases hinfo with rfl | rfl
    · simp only [truthyPath] at hp
      rw [if_neg (by decide)] at hp
      injection hp with hp
      subst hp
      decide
    · simp only [truthyPath] at hp
      rw [if_neg (by decide)] at hp
      injection hp with hp
      subst hp
      decide
  have h := rename_temp_names_amended ['F']
    [{ image_path := some ['F', '/', 'a', '.', 'j', 'p', 'g'],
       text_path := some ['F', '/', 'a', '.', 't', 'x', 't'],
       base_name := ['a'], is_paired := true },
     { image_path := some ['F', '/', 'b', '.', 'p', 'n', 'g'],
       base_name := ['b'] }] hext
  exact ⟨h.1, h.2 ['F', '/', 't', 'e', 'm', 'p', '_', '1', '.', 'j', 'p', 'g'] (by decide)⟩

/-! ### Basename, suffix and extension lemmas -/

lemma takeWhile_append_stop {p : Char → Bool} :
    ∀ (a : Str) (b : Char) (c : Str), (∀ x ∈ a, p x = true) → p b = false →
      (a ++ b :: c).takeWhile p = a := by
  intro a
  induction a with
  | nil =>
    intro b c _ hb
    simp [List.takeWhile_cons, hb]
  | cons x a' ih =>
    intro b c ha hb
    have hx : p x = true := ha x (List.mem_cons_self _ _)
    simp only [List.cons_append, List.takeWhile_cons, hx, if_true]
    rw [ih b c (fun y hy => ha y (List.mem_cons_of_mem _ hy)) hb]

lemma basename_pjoin {folder name : Str} (h : ('/' : Char) ∉ name) :
    basename (pjoin folder name) = name := by
  unfold basename pjoin
  have hrev : (folder ++ '/' :: name).reverse = name.reverse ++ '/' :: folder.reverse := by
    simp
  rw [hrev, takeWhile_append_stop name.reverse '/' folder.reverse
    (fun x hx => by
      simp only [decide_eq_true_eq]
      intro hcontra
      exact h (List.mem_reverse.mp (hcontra ▸ hx)))
    (by decide)]
  exact List.reverse_reverse name

lemma isPrefixOf_append_decomp :
    ∀ (l m : Str), l.isPrefixOf m = true → ∃ t, m = l ++ t := by
  intro l
  induction l with
  | nil => intro m _; exact ⟨m, rfl⟩
  | cons x l' ih =>
    intro m hm
    cases m with
    | nil => simp [List.isPrefixOf] at hm
    | cons y m' =>
      simp only [List.isPrefixOf, Bool.and_eq_true, beq_iff_eq] at hm
      obtain ⟨t, ht⟩ := ih m' hm.2
      exact ⟨t, by rw [hm.1, ht]; rfl⟩

lemma isSuffixOf_append_decomp {s c : Str} (h : s.isSuffixOf c = true) :
    ∃ w, c = w ++ s := by
  unfold List.isSuffixOf at h
  obtain ⟨t, ht⟩ := isPrefixOf_append_decomp _ _ h
  refine ⟨t.reverse, ?_⟩
  have := congrArg List.reverse ht
  rw [List.reverse_reverse, List.reverse_append, List.reverse_reverse] at this
  exact this

lemma isSuffixOf_of_append (w s : Str) : s.isSuffixOf (w ++ s) = true := by
  unfold List.isSuffixOf
  rw [List.reverse_append]
  exact isPrefixOf_append_self s.reverse w.reverse

lemma suffix_of_suffix_length_le {l a b s1 s2 : Str}
    (h1 : l = a ++ s1) (h2 : l = b ++ s2) (hlen : s1.length ≤ s2.length) :
    ∃ w, s2 = w ++ s1 := by
  have hab : b ++ s2 = a ++ s1 := h2.symm.trans h1
  have hblen : b.length ≤ a.length := by
    have := congrArg List.length hab
    simp only [List.length_append] at this
    omega
  refine ⟨a.drop b.length, ?_⟩
  have hd := congrArg (List.drop b.length) hab
  rw [List.drop_left, List.drop_append_of_le_length hblen] at hd
  exact hd

lemma dropWhile_head_not {p : Char → Bool} :
    ∀ (l : Str) (x : Char) (xs : Str), l.dropWhile p = x :: xs → p x = false := by
  intro l
  induction l with
  | nil => intro x xs h; simp at h
  | cons a as ih =>
    intro x xs h
    rw [List.dropWhile_cons] at h
    by_cases hp : p a = true
    · simp only [hp, if_true] at h
      exact ih x xs h
    · simp only [hp, if_false] at h
      injection h with h1 _
      rw [← h1]
      simpa using hp

lemma splitext_decomp {p : Str} (h : ('/' : Char) ∉ p) :
    p = (splitext p).1 ++ (splitext p).2 := by
  have hbase : p.reverse.takeWhile (fun c => c ≠ '/') = p.reverse := by
    rw [List.takeWhile_eq_self_iff]
    intro x hx
    simp only [decide_eq_true_eq]
    intro hcontra
    exact h (List.mem_reverse.mp (hcontra ▸ hx))
  unfold splitext
  rw [hbase]
  cases hd : p.reverse.dropWhile (fun c => c ≠ '.') with
  | nil => simp
  | cons x rpre =>
    by_cases hall : rpre.reverse.all (fun c => c == '.')
    · simp [hall]
    · simp only [hall, if_false]
      have hx : x = '.' := by
        have := dropWhile_head_not p.reverse x rpre hd
        simpa using this
      subst hx
      set A := p.reverse.takeWhile (fun c => c ≠ '.') with hA
      have hsplit : p.reverse = A ++ '.' :: rpre := by
        conv_lhs => rw [← List.takeWhile_append_dropWhile
          (p := fun c => decide (c ≠ '.')) (l := p.reverse)]
        rw [hd]
      have hdrop : p.reverse.drop (A.length + 1) = rpre := by
        rw [hsplit]
        rw [show A ++ '.' :: rpre = (A ++ ['.']) ++ rpre by simp]
        rw [show A.length + 1 = (A ++ ['.']).length by simp]
        exact List.drop_left _ _
      rw [hdrop]
      conv_lhs => rw [← List.reverse_reverse p, hsplit]
      simp [List.reverse_append]

lemma image_not_text {f : Str} (hslash : ('/' : Char) ∉ f) (htxt : endsTxt f = true) :
    isImage f = false := by
  by_contra hc
  have himg : isImage f = true := by simpa using hc
  unfold isImage at himg
  have hmem : pyLower (splitext f).2 ∈ image_extensions := by simpa using himg
  unfold endsTxt at htxt
  obtain ⟨w, hw⟩ := isSuffixOf_append_decomp htxt
  have hw2 : pyLower f = pyLower (splitext f).1 ++ pyLower (splitext f).2 := by
    conv_lhs => rw [splitext_decomp hslash]
    exact List.map_append _ _ _
  simp only [image_extensions, List.mem_cons, List.not_mem_nil, or_false] at hmem
  rcases hmem with hE | hE | hE | hE | hE | hE <;>
  · obtain ⟨w', hw'⟩ := suffix_of_suffix_length_le hw hw2 (by rw [hE]; decide)
    have hsuf := isSuffixOf_of_append w' txtSuffix
    rw [← hw', hE] at hsuf
    exact absurd hsuf (by decide)

lemma matchImage_paired_of_text {folder : Str} {texts : List Str} {img c : Str}
    (h : (matchImage folder texts img).text_path = some c) :
    (matchImage folder texts img).is_paired = true := by
  unfold matchImage at h ⊢
  by_cases h1 : ((splitext img).1 ++ txtSuffix) ∈ texts
  · simp [h1]
  · by_cases h2 : (img ++ txtSuffix) ∈ texts
    · simp [h1, h2]
    · simp [h1, h2] at h

/-! ### Claim C10 -/

/-- C10: the unpaired list of the scanner — exactly what
`auto_post_process` hands to the unpaired handler — contains only caption
files that no record consumed; it never contains any record's image path
(so an image that failed to pair is never moved into the `unpaired`
subfolder); and every record, paired or not, receives its numeric rename
pair at index `start + i` in the plan that `auto_post_process` passes to
`rename_files`. -/
theorem unpaired_list_only_unconsumed_captions (folder : Str) (files : List Str)
    (hslash : ∀ f ∈ files, ('/' : Char) ∉ f) :
    (∀ p ∈ (scan_core folder files).2, ∃ t, t ∈ files ∧ endsTxt t = true ∧
        p = pjoin folder t ∧ ∀ r ∈ (scan_core folder files).1, r.text_path ≠ some p) ∧
      (∀ r ∈ (scan_core folder files).1, ∀ q, r.image_path = some q →
        q ∉ (scan_core folder files).2) ∧
      (∀ (i : Nat) (h : i < (scan_core folder files).1.length),
        ((scan_core folder files).1.get ⟨i, h⟩).is_paired = false →
        ∀ p, truthyPath ((scan_core folder files).1.get ⟨i, h⟩).image_path = some p →
          (p, pjoin folder (tempName (rename_start_index + i) (splitext p).2)) ∈
              (buildPlan folder rename_start_index (scan_core folder files).1).1 ∧
            (pjoin folder (tempName (rename_start_index + i) (splitext p).2),
              pjoin folder (finalName (rename_start_index + i) (splitext p).2)) ∈
              (buildPlan folder rename_start_index (scan_core folder files).1).2) := by
  have hrec : (scan_core folder files).1 =
      (pySorted (files.filter isImage)).map
        (matchImage folder (pySorted (files.filter endsTxt))) := rfl
  have hunp : (scan_core folder files).2 =
      ((pySorted (files.filter endsTxt)).filter
        (fun t => !(usedTexts (scan_core folder files).1).contains t)).map (pjoin folder) := rfl
  have hmain : ∀ p ∈ (scan_core folder files).2, ∃ t, t ∈ files ∧ endsTxt t = true ∧
      p = pjoin folder t ∧ ∀ r ∈ (scan_core folder files).1, r.text_path ≠ some p := by
    intro p hp
    rw [hunp] at hp
    obtain ⟨t, htf, rfl⟩ := List.mem_map.mp hp
    have htexts := List.mem_filter.mp htf
    have htfiles : t ∈ files ∧ endsTxt t = true := mem_texts_iff.mp htexts.1
    have hnotused : t ∉ usedTexts (scan_core folder files).1 := by
      have h2 := htexts.2
      simp only [Bool.not_eq_true'] at h2
      intro hcontra
      have h3 : (usedTexts (scan_core folder files).1).contains t = true := by
        simpa using hcontra
      rw [h2] at h3
      exact Bool.false_ne_true h3
    refine ⟨t, htfiles.1, htfiles.2, rfl, ?_⟩
    intro r hr hcontra
    apply hnotused
    have hpaired : r.is_paired = true := by
      rw [hrec] at hr
      obtain ⟨i, _, rfl⟩ := List.mem_map.mp hr
      exact matchImage_paired_of_text hcontra
    have hbn : basename (pjoin folder t) = t :=
      basename_pjoin (hslash t htfiles.1)
    refine List.mem_filterMap.mpr ⟨r, hr, ?_⟩
    rw [hpaired, hcontra]
    simp [hbn]
  refine ⟨hmain, ?_, ?_⟩
  · intro r hr q hq hqmem
    obtain ⟨t, htfiles, htxt, hpt, _⟩ := hmain q hqmem
    rw [hrec] at hr
    obtain ⟨i, hi, rfl⟩ := List.mem_map.mp hr
    have hqi : q = pjoin folder i := by
      have := matchImage_image folder (pySorted (files.filter endsTxt)) i
      rw [hq] at this
      exact Option.some_injective _ this
    have hti : t = i := pjoin_inj (hpt.symm.trans hqi)
    subst hti
    have himg : isImage t = true := (mem_images_iff.mp hi).2
    have hfalse := image_not_text (hslash t htfiles) htxt
    rw [himg] at hfalse
    exact absurd hfalse (by decide)
  · intro i h _ p hp
    exact (buildPlan_mem_record (scan_core folder files).1 rename_start_index i h).1 p hp

/-- Witness for C10: folder listing `a.png, a.txt, b.png, c.txt` — the
unpaired image `b.png` is never in the unpaired-handler list, and its
record (position 1) still gets the numeric rename pair for index
`start + 1`. -/
theorem unpaired_list_only_unconsumed_captions_witness :
    (pjoin ['F'] ['b', '.', 'p', 'n', 'g']) ∉
      (scan_core ['F'] [['a', '.', 'p', 'n', 'g'], ['a', '.', 't', 'x', 't'],
        ['b', '.', 'p', 'n', 'g'], ['c', '.', 't', 'x', 't']]).2 ∧
      ((pjoin ['F'] ['b', '.', 'p', 'n', 'g'],
          pjoin ['F'] (tempName (rename_start_index + 1)
            (splitext (pjoin ['F'] ['b', '.', 'p', 'n', 'g'])).2)) ∈
          (buildPlan ['F'] rename_start_index
            (scan_core ['F'] [['a', '.', 'p', 'n', 'g'], ['a', '.', 't', 'x', 't'],
              ['b', '.', 'p', 'n', 'g'], ['c', '.', 't', 'x', 't']]).1).1 ∧
        (pjoin ['F'] (tempName (rename_start_index + 1)
            (splitext (pjoin ['F'] ['b', '.', 'p', 'n', 'g'])).2),
          pjoin ['F'] (finalName (rename_start_index + 1)
            (splitext (pjoin ['F'] ['b', '.', 'p', 'n', 'g'])).2)) ∈
          (buildPlan ['F'] rename_start_index
            (scan_core ['F'] [['a', '.', 'p', 'n', 'g'], ['a', '.', 't', 'x', 't'],
              ['b', '.', 'p', 'n', 'g'], ['c', '.', 't', 'x', 't']]).1).2) := by
  have h := unpaired_list_only_unconsumed_captions ['F']
    [['a', '.', 'p', 'n', 'g'], ['a', '.', 't', 'x', 't'],
     ['b', '.', 'p', 'n', 'g'], ['c', '.', 't', 'x', 't']] (by decide)
  refine ⟨?_, ?_⟩
  · exact h.2.1 ({ image_path := some (pjoin ['F'] ['b', '.', 'p', 'n', 'g']),
                   text_path := none, base_name := ['b'],
                   is_paired := false } : FileInfo) (by decide)
      (pjoin ['F'] ['b', '.', 'p', 'n', 'g']) (by decide)
  · exact h.2.2 1 (by decide) (by decide) (pjoin ['F'] ['b', '.', 'p', 'n', 'g']) (by decide)

/-! ### Strip idempotence -/

lemma dropWhile_idem {p : Char → Bool} (l : Str) :
    (l.dropWhile p).dropWhile p = l.dropWhile p := by
  induction l with
  | nil => rfl
  | cons a as ih =>
    rw [List.dropWhile_cons]
    by_cases hp : p a = true
    · simp only [hp, if_true]
      exact ih
    · simp [List.dropWhile_cons, hp]

lemma rstrip_idem (l : Str) : rstrip (rstrip l) = rstrip l := by
  unfold rstrip
  rw [List.reverse_reverse, dropWhile_idem]

lemma dropWhile_append_singleton {p : Char → Bool} {a : Char} (hpa : p a = false) :
    ∀ l : Str, (l ++ [a]).dropWhile p = l.dropWhile p ++ [a] := by
  intro l
  induction l with
  | nil => simp [List.dropWhile_cons, hpa]
  | cons b bs ih =>
    rw [List.cons_append, List.dropWhile_cons, List.dropWhile_cons]
    by_cases hb : p b = true
    · simp only [hb, if_true]
      exact ih
    · simp [hb]

lemma dropWhile_rstrip {X : Str} (hX : X.dropWhile isSpace = X) :
    (rstrip X).dropWhile isSpace = rstrip X := by
  cases hXc : X with
  | nil => rfl
  | cons a t =>
    have hpa : isSpace a = false := by
      apply dropWhile_head_not X a t
      rw [hX]
      exact hXc
    unfold rstrip
    rw [List.reverse_cons, dropWhile_append_singleton hpa, List.reverse_append]
    simp [List.dropWhile_cons, hpa]

lemma pystrip_idem (l : Str) : pystrip (pystrip l) = pystrip l := by
  unfold pystrip
  rw [dropWhile_rstrip (dropWhile_idem l), rstrip_idem]

/-! ### Dedup lemmas -/

lemma dedupAux_cons (seen : List Str) (x : Str) (xs : List Str) :
    dedupAux seen (x :: xs) =
      if x ∈ seen then dedupAux seen xs else x :: dedupAux (x :: seen) xs := rfl

lemma dedupAux_nil (seen : List Str) : dedupAux seen [] = [] := rfl

lemma dedupSeen_cons (seen : List Str) (x : Str) (xs : List Str) :
    dedupSeen seen (x :: xs) =
      if x ∈ seen then dedupSeen seen xs else dedupSeen (x :: seen) xs := rfl

lemma dedupAux_append (seen A B : List Str) :
    dedupAux seen (A ++ B) = dedupAux seen A ++ dedupAux (dedupSeen seen A) B := by
  induction A generalizing seen with
  | nil => rfl
  | cons x A' ih =>
    rw [List.cons_append, dedupAux_cons, dedupAux_cons, dedupSeen_cons]
    by_cases hx : x ∈ seen
    · simp only [hx, if_true]
      exact ih seen
    · simp only [hx, if_false]
      rw [List.cons_append, ih (x :: seen)]

lemma map_eq_self_of_mem {f : Str → Str} :
    ∀ {l : List Str}, (∀ x ∈ l, f x = x) → l.map f = l := by
  intro l
  induction l with
  | nil => intro _; rfl
  | cons a as ih =>
    intro h
    rw [List.map_cons, h a (List.mem_cons_self _ _),
      ih (fun x hx => h x (List.mem_cons_of_mem _ hx))]

lemma tagsAfterRemoval_mem {text : Str} {rT rC : List Str} {t : Str}
    (h : t ∈ tagsAfterRemoval text rT rC) : pystrip t = t ∧ t.isEmpty = false := by
  unfold tagsAfterRemoval at h
  have h0 : t ∈ ((splitChar ',' text).map pystrip).filter (fun t => !t.isEmpty) := by
    by_cases h1 : rT.isEmpty <;> by_cases h2 : rC.isEmpty <;>
      simp only [h1, h2, if_true, if_false] at h <;>
      first
        | exact h
        | exact List.mem_filter.mp h |>.1
        | exact List.mem_filter.mp (List.mem_filter.mp h).1 |>.1
  have hf := List.mem_filter.mp h0
  obtain ⟨u, _, rfl⟩ := List.mem_map.mp hf.1
  refine ⟨pystrip_idem u, ?_⟩
  have := hf.2
  simpa using this

/-! ### Claim C6 -/

/-- Counterexample to C6 as stated: `["b"], ["a"]` is an admissible
iteration sequence of the Python set built from the caller's list
`["a"], ["b"]` (string hashing makes the order unspecified), and under it
the tags are appended in set-iteration order `b, a`, not in the
caller-supplied order `a, b`. -/
theorem clean_edit_caller_order_counterexample :
    IsSetIteration [['a'], ['b']] [['b'], ['a']] ∧
      clean_and_edit_tags ['x'] [] [] [['b'], ['a']] =
        ['x', ',', ' ', 'b', ',', ' ', 'a'] ∧
      ['x', ',', ' ', 'b', ',', ' ', 'a'] ≠ ['x', ',', ' ', 'a', ',', ' ', 'b'] := by
  refine ⟨⟨by decide, ?_⟩, by decide, by decide⟩
  intro x
  simp only [List.mem_cons, List.not_mem_nil, or_false]
  tauto

/-- C6, amended: for non-empty input, the output is the post-removal tag
list (deduplicated) followed by the members of the add set's iteration
sequence that are not already present, stripped, non-empty, and
deduplicated against everything before them — in the iteration order of
the set, which `manual_tag_process` obtains from `set(add_tags)` and which
need not match the caller-supplied list order. -/
theorem clean_edit_append_in_iteration_order (text : Str) (rT rC aI : List Str)
    (h : (pystrip text).isEmpty = false) :
    clean_and_edit_tags text rT rC aI =
      joinComma (pyDedup (tagsAfterRemoval text rT rC) ++
        dedupAux (dedupSeen [] (tagsAfterRemoval text rT rC))
          (((aI.filter (fun t => !(tagsAfterRemoval text rT rC).contains t)).map
            pystrip).filter (fun t => !t.isEmpty))) := by
  unfold clean_and_edit_tags
  rw [if_neg (by simp [h])]
  have hstrip : (tagsAfterRemoval text rT rC).map pystrip = tagsAfterRemoval text rT rC :=
    map_eq_self_of_mem (fun x hx => (tagsAfterRemoval_mem hx).1)
  have hfilter : (tagsAfterRemoval text rT rC).filter (fun t => !t.isEmpty) =
      tagsAfterRemoval text rT rC :=
    List.filter_eq_self.mpr (fun x hx => by simp [(tagsAfterRemoval_mem hx).2])
  by_cases haI : aI.isEmpty
  · have : aI = [] := by simpa using haI
    subst this
    simp only [haI, if_true]
    rw [hstrip, hfilter]
    simp [pyDedup, dedupAux_nil]
  · dsimp only
    rw [if_neg haI]
    rw [List.map_append, List.filter_append, hstrip, hfilter]
    unfold pyDedup
    rw [dedupAux_append]

/-- Witness for C6 (amended): concrete instance with input `x`, no
removals, and iteration sequence `b, a`. -/
theorem clean_edit_append_in_iteration_order_witness :
    clean_and_edit_tags ['x'] [] [] [['b'], ['a']] =
      joinComma (pyDedup (tagsAfterRemoval ['x'] [] []) ++
        dedupAux (dedupSeen [] (tagsAfterRemoval ['x'] [] []))
          ((([['b'], ['a']].filter
              (fun t => !(tagsAfterRemoval ['x'] [] []).contains t)).map
            pystrip).filter (fun t => !t.isEmpty))) :=
  clean_edit_append_in_iteration_order ['x'] [] [] [['b'], ['a']] (by decide)

/-! ### Escaping-pass lemmas -/

lemma escCh_allEscaped {t : Char} (ht : t ≠ '\\') :
    ∀ (l : Str) (prev : Option Char), allEscaped t prev (escCh t prev l) = true := by
  intro l
  induction l with
  | nil => intro prev; rfl
  | cons c rest ih =>
    intro prev
    simp only [escCh]
    by_cases hc : c = t ∧ prev ≠ some '\\'
    · rw [if_pos hc]
      simp only [allEscaped, Bool.and_eq_true]
      refine ⟨?_, ?_, ih (some c)⟩
      · rw [if_neg (fun hcontra => ht hcontra.symm)]
      · rw [if_pos hc.1]
        simp
    · rw [if_neg hc]
      simp only [allEscaped, Bool.and_eq_true]
      refine ⟨?_, ih (some c)⟩
      by_cases hct : c = t
      · have hprev : prev = some '\\' := by
          by_contra hp
          exact hc ⟨hct, hp⟩
        rw [if_pos hct, hprev]
        simp
      · rw [if_neg hct]

lemma escCh_id_of_allEscaped {t : Char} :
    ∀ (l : Str) (prev : Option Char), allEscaped t prev l = true → escCh t prev l = l := by
  intro l
  induction l with
  | nil => intro prev _; rfl
  | cons c rest ih =>
    intro prev h
    simp only [allEscaped, Bool.and_eq_true] at h
    simp only [escCh]
    rw [if_neg ?hneg]
    · rw [ih (some c) h.2]
    case hneg =>
      intro hcontra
      have h1 := h.1
      rw [if_pos hcontra.1] at h1
      exact hcontra.2 (of_decide_eq_true h1)

lemma escCh_preserves_allEscaped {t u : Char} (htu : t ≠ u) (ht : t ≠ '\\') :
    ∀ (l : Str) (prev : Option Char),
      allEscaped t prev l = true → allEscaped t prev (escCh u prev l) = true := by
  intro l
  induction l with
  | nil => intro prev _; rfl
  | cons c rest ih =>
    intro prev h
    simp only [allEscaped, Bool.and_eq_true] at h
    simp only [escCh]
    by_cases hc : c = u ∧ prev ≠ some '\\'
    · rw [if_pos hc]
      simp only [allEscaped, Bool.and_eq_true]
      refine ⟨?_, ?_, ih (some c) h.2⟩
      · rw [if_neg (fun hcontra => ht hcontra.symm)]
      · rw [if_neg (fun hcontra => htu (by rw [← hcontra]; exact hc.1))]
    · rw [if_neg hc]
      simp only [allEscaped, Bool.and_eq_true]
      exact ⟨h.1, ih (some c) h.2⟩

lemma mem_escCh {t : Char} :
    ∀ (l : Str) (prev : Option Char) (c : Char), c ∈ escCh t prev l → c = '\\' ∨ c ∈ l := by
  intro l
  induction l with
  | nil => intro prev c h; simp [escCh] at h
  | cons a rest ih =>
    intro prev c h
    unfold escCh at h
    by_cases ha : a = t ∧ prev ≠ some '\\'
    · rw [if_pos ha] at h
      rcases List.mem_cons.mp h with rfl | h2
      · exact Or.inl rfl
      · rcases List.mem_cons.mp h2 with rfl | h3
        · exact Or.inr (List.mem_cons_self _ _)
        · rcases ih (some a) c h3 with h4 | h4
          · exact Or.inl h4
          · exact Or.inr (List.mem_cons_of_mem _ h4)
    · rw [if_neg ha] at h
      rcases List.mem_cons.mp h with rfl | h2
      · exact Or.inr (List.mem_cons_self _ _)
      · rcases ih (some a) c h2 with h4 | h4
        · exact Or.inl h4
        · exact Or.inr (List.mem_cons_of_mem _ h4)

lemma allEscaped_anyPrev {t c : Char} (hc : c ≠ '\\') :
    ∀ {l : Str}, allEscaped t (some c) l = true → ∀ prev, allEscaped t prev l = true := by
  intro l
  cases l with
  | nil => intro _ prev; rfl
  | cons x xs =>
    intro h prev
    unfold allEscaped at h ⊢
    rw [Bool.and_eq_true] at h
    rw [Bool.and_eq_true]
    refine ⟨?_, h.2⟩
    by_cases hx : x = t
    · exfalso
      have := h.1
      rw [if_pos hx] at this
      have := of_decide_eq_true this
      injection this with h2
      exact hc h2
    · rw [if_neg hx]

lemma allEscaped_append_left {t : Char} :
    ∀ (l₁ l₂ : Str) (prev : Option Char),
      allEscaped t prev (l₁ ++ l₂) = true → allEscaped t prev l₁ = true := by
  intro l₁
  induction l₁ with
  | nil => intro l₂ prev _; rfl
  | cons c rest ih =>
    intro l₂ prev h
    rw [List.cons_append] at h
    unfold allEscaped at h ⊢
    rw [Bool.and_eq_true] at h
    rw [Bool.and_eq_true]
    exact ⟨h.1, ih l₂ (some c) h.2⟩

lemma dropWhile_decomp {p : Char → Bool} : ∀ l : Str, ∃ w, l = w ++ l.dropWhile p ∧
    ∀ x ∈ w, p x = true := by
  intro l
  induction l with
  | nil => exact ⟨[], rfl, by simp⟩
  | cons a as ih =>
    rw [List.dropWhile_cons]
    by_cases hp : p a = true
    · simp only [hp, if_true]
      obtain ⟨w, hw, hwall⟩ := ih
      refine ⟨a :: w, by rw [List.cons_append, ← hw], ?_⟩
      intro x hx
      rcases List.mem_cons.mp hx with rfl | hx2
      · exact hp
      · exact hwall x hx2
    · simp only [hp, if_false]
      exact ⟨[], rfl, by simp⟩

lemma allEscaped_dropWhile {t : Char} {l : Str}
    (h : allEscaped t none l = true) :
    allEscaped t none (l.dropWhile isSpace) = true := by
  induction l with
  | nil => exact h
  | cons a as ih =>
    rw [List.dropWhile_cons]
    by_cases hp : isSpace a = true
    · simp only [hp, if_true]
      have ha : a ≠ '\\' := by
        intro hcontra
        rw [hcontra] at hp
        exact absurd hp (by decide)
      unfold allEscaped at h
      rw [Bool.and_eq_true] at h
      exact ih (allEscaped_anyPrev ha h.2 none)
    · simp only [hp, if_false]
      exact h

lemma allEscaped_rstrip {t : Char} {l : Str} {prev : Option Char}
    (h : allEscaped t prev l = true) :
    allEscaped t prev (rstrip l) = true := by
  obtain ⟨w, hw, _⟩ := dropWhile_decomp (p := isSpace) l.reverse
  have hl : l = rstrip l ++ w.reverse := by
    conv_lhs => rw [← List.reverse_reverse l, hw]
    rw [List.reverse_append]
    rfl
  rw [hl] at h
  exact allEscaped_append_left _ _ _ h

lemma allEscaped_pystrip {t : Char} {l : Str}
    (h : allEscaped t none l = true) :
    allEscaped t none (pystrip l) = true :=
  allEscaped_rstrip (allEscaped_dropWhile h)

/-! ### Split, replace, membership lemmas -/

lemma splitChar_ne_nil (sep : Char) : ∀ l : Str, splitChar sep l ≠ [] := by
  intro l
  cases l with
  | nil => simp [splitChar]
  | cons c rest =>
    simp only [splitChar]
    cases h : splitChar sep rest with
    | nil => simp
    | cons x t =>
      by_cases hc : c = sep <;> simp [hc]

lemma splitChar_piece_no_sep {sep : Char} :
    ∀ (l : Str) (piece : Str), piece ∈ splitChar sep l → sep ∉ piece := by
  intro l
  induction l with
  | nil =>
    intro piece h
    simp only [splitChar, List.mem_singleton] at h
    subst h
    simp
  | cons c rest ih =>
    intro piece h
    simp only [splitChar] at h
    cases hs : splitChar sep rest with
    | nil => exact absurd hs (splitChar_ne_nil sep rest)
    | cons x t =>
      rw [hs] at h
      dsimp only at h
      by_cases hc : c = sep
      · rw [if_pos hc] at h
        rcases List.mem_cons.mp h with rfl | h2
        · simp
        · exact ih piece (by rw [hs]; exact h2)
      · rw [if_neg hc] at h
        rcases List.mem_cons.mp h with rfl | h2
        · intro hmem
          rcases List.mem_cons.mp hmem with rfl | h3
          · exact hc rfl
          · exact ih x (by rw [hs]; exact List.mem_cons_self _ _) h3
        · exact ih piece (by rw [hs]; exact List.mem_cons_of_mem _ h2)

lemma splitChar_piece_subset {sep : Char} :
    ∀ (l : Str) (piece : Str), piece ∈ splitChar sep l → ∀ c ∈ piece, c ∈ l := by
  intro l
  induction l with
  | nil =>
    intro piece h
    simp only [splitChar, List.mem_singleton] at h
    subst h
    simp
  | cons a rest ih =>
    intro piece h c hc
    simp only [splitChar] at h
    cases hs : splitChar sep rest with
    | nil => exact absurd hs (splitChar_ne_nil sep rest)
    | cons x t =>
      rw [hs] at h
      dsimp only at h
      by_cases ha : a = sep
      · rw [if_pos ha] at h
        rcases List.mem_cons.mp h with rfl | h2
        · simp at hc
        · exact List.mem_cons_of_mem _ (ih piece (by rw [hs]; exact h2) c hc)
      · rw [if_neg ha] at h
        rcases List.mem_cons.mp h with rfl | h2
        · rcases List.mem_cons.mp hc with rfl | h3
          · exact List.mem_cons_self _ _
          · exact List.mem_cons_of_mem _
              (ih x (by rw [hs]; exact List.mem_cons_self _ _) c h3)
        · exact List.mem_cons_of_mem _
            (ih piece (by rw [hs]; exact List.mem_cons_of_mem _ h2) c hc)

lemma splitChar_of_no_sep {sep : Char} :
    ∀ l : Str, sep ∉ l → splitChar sep l = [l] := by
  intro l
  induction l with
  | nil => intro _; rfl
  | cons c rest ih =>
    intro h
    have hc : c ≠ sep := fun hcontra => h (by rw [← hcontra]; exact List.mem_cons_self _ _)
    have hrest : sep ∉ rest := fun hcontra => h (List.mem_cons_of_mem _ hcontra)
    simp only [splitChar]
    rw [ih hrest]
    simp [hc]

lemma splitChar_append_sep {sep : Char} :
    ∀ (l₁ l₂ : Str), sep ∉ l₁ → splitChar sep (l₁ ++ sep :: l₂) = l₁ :: splitChar sep l₂ := by
  intro l₁
  induction l₁ with
  | nil =>
    intro l₂ _
    simp only [List.nil_append, splitChar]
    cases hs : splitChar sep l₂ with
    | nil => exact absurd hs (splitChar_ne_nil sep l₂)
    | cons x t => simp
  | cons c rest ih =>
    intro l₂ h
    have hc : c ≠ sep := fun hcontra => h (by rw [← hcontra]; exact List.mem_cons_self _ _)
    have hrest : sep ∉ rest := fun hcontra => h (List.mem_cons_of_mem _ hcontra)
    rw [List.cons_append]
    simp only [splitChar]
    rw [ih l₂ hrest]
    simp [hc]

lemma splitChar_cons_of_ne {sep c : Char} {X : Str} {h : Str} {tt : List Str}
    (hc : c ≠ sep) (hs : splitChar sep X = h :: tt) :
    splitChar sep (c :: X) = (c :: h) :: tt := by
  simp only [splitChar]
  rw [hs]
  simp [hc]

lemma mem_pystrip {c : Char} {l : Str} (h : c ∈ pystrip l) : c ∈ l := by
  unfold pystrip rstrip at h
  have h1 := List.mem_reverse.mpr h
  rw [List.reverse_reverse] at h1
  have h2 := mem_of_mem_dropWhile h1
  have h3 := List.mem_reverse.mp h2
  exact mem_of_mem_dropWhile h3

lemma mem_takeWhile {p : Char → Bool} :
    ∀ {l : Str} {x : Char}, x ∈ l.takeWhile p → p x = true := by
  intro l
  induction l with
  | nil => intro x h; simp [List.takeWhile] at h
  | cons a as ih =>
    intro x h
    rw [List.takeWhile_cons] at h
    by_cases hp : p a = true
    · simp only [hp, if_true] at h
      rcases List.mem_cons.mp h with rfl | h2
      · exact hp
      · exact ih h2
    · simp only [hp, if_false] at h
      simp at h

lemma mem_pystrip_of_not_space {x : Char} {l : Str}
    (hx : x ∈ l) (hsp : isSpace x = false) : x ∈ pystrip l := by
  have step : ∀ m : Str, x ∈ m → x ∈ m.dropWhile isSpace := by
    intro m hm
    have hdecomp := List.takeWhile_append_dropWhile (p := isSpace) (l := m)
    rw [← hdecomp] at hm
    rcases List.mem_append.mp hm with h1 | h1
    · exact absurd (mem_takeWhile h1) (by rw [hsp]; simp)
    · exact h1
  unfold pystrip rstrip
  rw [List.mem_reverse]
  apply step
  rw [List.mem_reverse]
  exact step l hx

lemma pystrip_ne_nil_of_mem {x : Char} {l : Str}
    (hx : x ∈ l) (hsp : isSpace x = false) : pystrip l ≠ [] := by
  intro hcontra
  have hmem := mem_pystrip_of_not_space hx hsp
  rw [hcontra] at hmem
  simp at hmem

lemma map_eq_self_of_mem_char {f : Char → Char} :
    ∀ {l : Str}, (∀ x ∈ l, f x = x) → l.map f = l := by
  intro l
  induction l with
  | nil => intro _; rfl
  | cons a as ih =>
    intro h
    rw [List.map_cons, h a (List.mem_cons_self _ _),
      ih (fun x hx => h x (List.mem_cons_of_mem _ hx))]

lemma replaceChar_id {u v : Char} {l : Str} (h : u ∉ l) : replaceChar u v l = l := by
  unfold replaceChar
  apply map_eq_self_of_mem_char
  intro x hx
  rw [if_neg (fun hcontra : x = u => h (by rw [← hcontra]; exact hx))]

lemma mem_replaceChar {u v c : Char} {l : Str} (h : c ∈ replaceChar u v l) :
    c = v ∨ c ∈ l := by
  unfold replaceChar at h
  obtain ⟨a, ha, hc⟩ := List.mem_map.mp h
  by_cases hau : a = u
  · rw [if_pos hau] at hc
    exact Or.inl hc.symm
  · rw [if_neg hau] at hc
    exact Or.inr (hc ▸ ha)

lemma replaceChar_not_mem {u v : Char} (huv : u ≠ v) (l : Str) :
    u ∉ replaceChar u v l := by
  intro h
  unfold replaceChar at h
  obtain ⟨a, _, hc⟩ := List.mem_map.mp h
  by_cases hau : a = u
  · rw [if_pos hau] at hc
    exact huv hc.symm
  · rw [if_neg hau] at hc
    exact hau (hc ▸ rfl)

/-! ### Dedup properties -/

lemma mem_dedupAux {x : Str} : ∀ (l seen : List Str), x ∈ dedupAux seen l → x ∈ l := by
  intro l
  induction l with
  | nil => intro seen h; simp [dedupAux] at h
  | cons a as ih =>
    intro seen h
    rw [dedupAux_cons] at h
    by_cases ha : a ∈ seen
    · rw [if_pos ha] at h
      exact List.mem_cons_of_mem _ (ih seen h)
    · rw [if_neg ha] at h
      rcases List.mem_cons.mp h with rfl | h2
      · exact List.mem_cons_self _ _
      · exact List.mem_cons_of_mem _ (ih (a :: seen) h2)

lemma dedupAux_nodup_and_fresh :
    ∀ (l seen : List Str), (dedupAux seen l).Nodup ∧ ∀ x ∈ dedupAux seen l, x ∉ seen := by
  intro l
  induction l with
  | nil => intro seen; simp [dedupAux]
  | cons a as ih =>
    intro seen
    rw [dedupAux_cons]
    by_cases ha : a ∈ seen
    · rw [if_pos ha]
      exact ih seen
    · rw [if_neg ha]
      obtain ⟨hnd, hfresh⟩ := ih (a :: seen)
      refine ⟨List.nodup_cons.mpr ⟨?_, hnd⟩, ?_⟩
      · intro hcontra
        exact hfresh a hcontra (List.mem_cons_self _ _)
      · intro x hx
        rcases List.mem_cons.mp hx with rfl | h2
        · exact ha
        · exact fun hc => hfresh x h2 (List.mem_cons_of_mem _ hc)

lemma dedupAux_id_of_nodup :
    ∀ (l seen : List Str), l.Nodup → (∀ x ∈ l, x ∉ seen) → dedupAux seen l = l := by
  intro l
  induction l with
  | nil => intro seen _ _; rfl
  | cons a as ih =>
    intro seen hnd hfresh
    rw [dedupAux_cons, if_neg (hfresh a (List.mem_cons_self _ _))]
    rw [ih (a :: seen) (List.nodup_cons.mp hnd).2]
    intro x hx
    rw [List.mem_cons]
    intro hc
    rcases hc with rfl | hc2
    · exact (List.nodup_cons.mp hnd).1 hx
    · exact hfresh x (List.mem_cons_of_mem _ hx) hc2

/-! ### Join lemmas -/

lemma joinComma_cons₂ (t u : Str) (r : List Str) :
    joinComma (t :: u :: r) = t ++ ',' :: ' ' :: joinComma (u :: r) := rfl

lemma not_mem_joinComma {c : Char} :
    ∀ ts : List Str, (∀ t ∈ ts, c ∉ t) → c ≠ ',' → c ≠ ' ' → c ∉ joinComma ts := by
  intro ts
  induction ts with
  | nil => intro _ _ _; simp [joinComma]
  | cons t rest ih =>
    intro hall hc hs
    cases rest with
    | nil => exact hall t (List.mem_cons_self _ _)
    | cons u r =>
      rw [joinComma_cons₂]
      intro hmem
      rcases List.mem_append.mp hmem with h1 | h1
      · exact hall t (List.mem_cons_self _ _) h1
      · rcases List.mem_cons.mp h1 with rfl | h2
        · exact hc rfl
        · rcases List.mem_cons.mp h2 with rfl | h3
          · exact hs rfl
          · exact ih (fun x hx => hall x (List.mem_cons_of_mem _ hx)) hc hs h3

lemma pystrip_cons_space (t : Str) : pystrip (' ' :: t) = pystrip t := by
  unfold pystrip
  rw [List.dropWhile_cons, if_pos (by decide)]

lemma dropWhile_eq_nil_of_all {p : Char → Bool} :
    ∀ {l : Str}, (∀ x ∈ l, p x = true) → l.dropWhile p = [] := by
  intro l
  induction l with
  | nil => intro _; rfl
  | cons a as ih =>
    intro h
    rw [List.dropWhile_cons, if_pos (h a (List.mem_cons_self _ _))]
    exact ih (fun x hx => h x (List.mem_cons_of_mem _ hx))

lemma exists_nonspace_of_stripped {t : Str} (hst : pystrip t = t) (hne : t ≠ []) :
    ∃ c ∈ t, isSpace c = false := by
  by_contra hc
  push_neg at hc
  have hall : ∀ x ∈ t, isSpace x = true := by
    intro x hx
    cases hx2 : isSpace x
    · exact absurd hx2 (hc x hx)
    · rfl
  have hnil : pystrip t = [] := by
    unfold pystrip
    rw [dropWhile_eq_nil_of_all hall]
    rfl
  exact hne (hst ▸ hnil)

lemma splitChar_join_spaced {r : List Str} :
    ∀ (t : Str) , (∀ x ∈ t :: r, (',' : Char) ∉ x) →
      splitChar ',' (joinComma (t :: r)) = t :: r.map (fun u => ' ' :: u) := by
  induction r with
  | nil =>
    intro t hall
    show splitChar ',' t = [t]
    exact splitChar_of_no_sep t (hall t (List.mem_cons_self _ _))
  | cons u r' ih =>
    intro t hall
    rw [joinComma_cons₂, splitChar_append_sep _ _ (hall t (List.mem_cons_self _ _))]
    have hrec := ih u (fun x hx => hall x (List.mem_cons_of_mem _ hx))
    cases hs : splitChar ',' (joinComma (u :: r')) with
    | nil => exact absurd hs (splitChar_ne_nil _ _)
    | cons h0 tt =>
      rw [hs] at hrec
      injection hrec with h1 h2
      rw [splitChar_cons_of_ne (by decide) hs, h1, h2]
      rfl

/-! ### Pipeline output properties -/

lemma splitTags_mem {text t : Str} (h : t ∈ splitTags text) :
    pystrip t = t ∧ t ≠ [] ∧ '\n' ∉ t ∧ ',' ∉ t := by
  unfold splitTags at h
  obtain ⟨line, hline, ht⟩ := List.mem_flatMap.mp h
  have hnl : ('\n' : Char) ∉ line := splitChar_piece_no_sep _ _ hline
  unfold parseLine at ht
  by_cases hcomma : line.contains ','
  · rw [if_pos hcomma] at ht
    have hf := List.mem_filter.mp ht
    obtain ⟨u, hu, rfl⟩ := List.mem_map.mp hf.1
    refine ⟨pystrip_idem u, by simpa [List.isEmpty_iff] using hf.2, ?_, ?_⟩
    · intro hc
      exact hnl (splitChar_piece_subset _ _ hu _ (mem_pystrip hc))
    · intro hc
      exact splitChar_piece_no_sep _ _ hu (mem_pystrip hc)
  · rw [if_neg hcomma] at ht
    by_cases hemp : (pystrip line).isEmpty
    · rw [if_pos hemp] at ht
      simp at ht
    · rw [if_neg hemp] at ht
      simp only [List.mem_singleton] at ht
      subst ht
      refine ⟨pystrip_idem line, by simpa [List.isEmpty_iff] using hemp, ?_, ?_⟩
      · intro hc
        exact hnl (mem_pystrip hc)
      · intro hc
        have hmem : (',' : Char) ∈ line := mem_pystrip hc
        exact hcomma (by simpa using hmem)

lemma autoTags_norm {text t : Str}
    (h : t ∈ ((((splitTags text).map replaceUnderscoreHyphen).map escapeParens).map
      pystrip).filter (fun t => !t.isEmpty)) : NormTag t := by
  have hf := List.mem_filter.mp h
  obtain ⟨w2, hw2, rfl⟩ := List.mem_map.mp hf.1
  obtain ⟨w1, hw1, rfl⟩ := List.mem_map.mp hw2
  obtain ⟨u, hu, rfl⟩ := List.mem_map.mp hw1
  obtain ⟨hustrip, hune, hunl, hunc⟩ := splitTags_mem hu
  have hmem_chain : ∀ c : Char, c ∈ pystrip (escapeParens (replaceUnderscoreHyphen u)) →
      c = '\\' ∨ c = ' ' ∨ c ∈ u := by
    intro c hc
    have h1 := mem_pystrip hc
    unfold escapeParens at h1
    rcases mem_escCh _ _ _ h1 with h2 | h2
    · exact Or.inl h2
    rcases mem_escCh _ _ _ h2 with h3 | h3
    · exact Or.inl h3
    unfold replaceUnderscoreHyphen at h3
    rcases mem_replaceChar h3 with h4 | h4
    · exact Or.inr (Or.inl h4)
    rcases mem_replaceChar h4 with h5 | h5
    · exact Or.inr (Or.inl h5)
    · exact Or.inr (Or.inr h5)
  refine ⟨by simpa [List.isEmpty_iff] using hf.2, pystrip_idem _, ?_, ?_, ?_, ?_, ?_, ?_⟩
  · intro hc
    rcases hmem_chain _ hc with h1 | h1 | h1
    · exact absurd h1 (by decide)
    · exact absurd h1 (by decide)
    · exact hunl h1
  · intro hc
    rcases hmem_chain _ hc with h1 | h1 | h1
    · exact absurd h1 (by decide)
    · exact absurd h1 (by decide)
    · exact hunc h1
  · intro hc
    have h1 := mem_pystrip hc
    unfold escapeParens at h1
    rcases mem_escCh _ _ _ h1 with h2 | h2
    · exact absurd h2 (by decide)
    rcases mem_escCh _ _ _ h2 with h3 | h3
    · exact absurd h3 (by decide)
    unfold replaceUnderscoreHyphen at h3
    rcases mem_replaceChar h3 with h4 | h4
    · exact absurd h4 (by decide)
    · exact replaceChar_not_mem (by decide) u h4
  · intro hc
    have h1 := mem_pystrip hc
    unfold escapeParens at h1
    rcases mem_escCh _ _ _ h1 with h2 | h2
    · exact absurd h2 (by decide)
    rcases mem_escCh _ _ _ h2 with h3 | h3
    · exact absurd h3 (by decide)
    unfold replaceUnderscoreHyphen at h3
    exact replaceChar_not_mem (by decide) _ h3
  · apply allEscaped_pystrip
    unfold escapeParens
    exact escCh_preserves_allEscaped (by decide) (by decide) _ none
      (escCh_allEscaped (by decide) _ none)
  · apply allEscaped_pystrip
    unfold escapeParens
    exact escCh_allEscaped (by decide) _ none

lemma auto_standardize_eq {x : Str} (hx : (pystrip x).isEmpty = false) :
    auto_standardize_tags x = joinComma (pyDedup (((((splitTags x).map
      replaceUnderscoreHyphen).map escapeParens).map pystrip).filter
        (fun t => !t.isEmpty))) := by
  unfold auto_standardize_tags
  rw [if_neg (by simp [hx])]

lemma norm_pipeline_id {ts : List Str} (hnorm : ∀ t ∈ ts, NormTag t) (hnd : ts.Nodup) :
    pyDedup ((((ts.map replaceUnderscoreHyphen).map escapeParens).map pystrip).filter
      (fun t => !t.isEmpty)) = ts := by
  have h1 : ts.map replaceUnderscoreHyphen = ts := map_eq_self_of_mem (fun t ht => by
    obtain ⟨_, _, _, _, hu, hh, _, _⟩ := hnorm t ht
    unfold replaceUnderscoreHyphen
    rw [replaceChar_id hu, replaceChar_id hh])
  have h2 : ts.map escapeParens = ts := map_eq_self_of_mem (fun t ht => by
    obtain ⟨_, _, _, _, _, _, hl, hr⟩ := hnorm t ht
    unfold escapeParens
    rw [escCh_id_of_allEscaped t none hl, escCh_id_of_allEscaped t none hr])
  have h3 : ts.map pystrip = ts := map_eq_self_of_mem (fun t ht => (hnorm t ht).2.1)
  have h4 : ts.filter (fun t => !t.isEmpty) = ts := List.filter_eq_self.mpr (fun t ht => by
    simp [List.isEmpty_iff, (hnorm t ht).1])
  rw [h1, h2, h3, h4]
  exact dedupAux_id_of_nodup ts [] hnd (by simp)

lemma splitTags_joinComma_norm {ts : List Str} (hne : ts ≠ [])
    (hnorm : ∀ t ∈ ts, NormTag t) : splitTags (joinComma ts) = ts := by
  obtain ⟨t₁, rest, rfl⟩ : ∃ t₁ rest, ts = t₁ :: rest := by
    cases ts with
    | nil => exact absurd rfl hne
    | cons a b => exact ⟨a, b, rfl⟩
  have hnonl : ('\n' : Char) ∉ joinComma (t₁ :: rest) :=
    not_mem_joinComma _ (fun t ht => (hnorm t ht).2.2.1) (by decide) (by decide)
  unfold splitTags
  rw [splitChar_of_no_sep _ hnonl]
  show parseLine (joinComma (t₁ :: rest)) ++ [].flatMap parseLine = _
  rw [List.flatMap_nil, List.append_nil]
  cases rest with
  | nil =>
    show parseLine t₁ = [t₁]
    obtain ⟨hne₁, hst₁, _, hnc₁, _⟩ := hnorm t₁ (List.mem_cons_self _ _)
    unfold parseLine
    rw [if_neg (fun hcontra => hnc₁ (by simpa using hcontra))]
    rw [if_neg (by simp [hst₁, List.isEmpty_iff, hne₁])]
    rw [hst₁]
  | cons u r' =>
    have hnc : ∀ t ∈ t₁ :: u :: r', (',' : Char) ∉ t := fun t ht => (hnorm t ht).2.2.2.1
    have hcomma : (',' : Char) ∈ joinComma (t₁ :: u :: r') := by
      rw [joinComma_cons₂]
      exact List.mem_append_right _ (List.mem_cons_self _ _)
    unfold parseLine
    rw [if_pos (by simpa using hcomma)]
    rw [splitChar_join_spaced t₁ hnc]
    rw [List.map_cons, List.map_map]
    have hmap : (u :: r').map (pystrip ∘ fun x => ' ' :: x) = u :: r' := by
      apply map_eq_self_of_mem
      intro t ht
      show pystrip (' ' :: t) = t
      rw [pystrip_cons_space]
      exact (hnorm t (List.mem_cons_of_mem _ ht)).2.1
    rw [hmap, (hnorm t₁ (List.mem_cons_self _ _)).2.1]
    apply List.filter_eq_self.mpr
    intro t ht
    simp [List.isEmpty_iff, (hnorm t ht).1]

lemma auto_roundtrip {ts : List Str} (hne : ts ≠ []) (hnorm : ∀ t ∈ ts, NormTag t)
    (hnd : ts.Nodup) : auto_standardize_tags (joinComma ts) = joinComma ts := by
  obtain ⟨t₁, rest, rfl⟩ : ∃ t₁ rest, ts = t₁ :: rest := by
    cases ts with
    | nil => exact absurd rfl hne
    | cons a b => exact ⟨a, b, rfl⟩
  obtain ⟨hne₁, hst₁, _, _⟩ := hnorm t₁ (List.mem_cons_self _ _)
  obtain ⟨c, hc, hcs⟩ := exists_nonspace_of_stripped hst₁ hne₁
  have hjoinmem : c ∈ joinComma (t₁ :: rest) := by
    cases rest with
    | nil => exact hc
    | cons u r' =>
      rw [joinComma_cons₂]
      exact List.mem_append_left _ hc
  have hguard : (pystrip (joinComma (t₁ :: rest))).isEmpty = false := by
    have := pystrip_ne_nil_of_mem hjoinmem hcs
    simpa [List.isEmpty_iff] using this
  rw [auto_standardize_eq hguard, splitTags_joinComma_norm hne hnorm,
    norm_pipeline_id hnorm hnd]

/-! ### Claim C1 -/

/-- C1: `auto_standardize_tags` is idempotent — applying it twice yields
the same result as applying it once, for every input string; in
particular, parentheses escaped on the first run are not escaped again. -/
theorem auto_standardize_idempotent (x : Str) :
    auto_standardize_tags (auto_standardize_tags x) = auto_standardize_tags x := by
  by_cases hx : (pystrip x).isEmpty
  · have h1 : auto_standardize_tags x = [] := by
      unfold auto_standardize_tags
      rw [if_pos hx]
    rw [h1]
    unfold auto_standardize_tags
    rw [if_pos (by decide)]
  · have hx' : (pystrip x).isEmpty = false := by simpa using hx
    rw [auto_standardize_eq hx']
    by_cases hempty : pyDedup (((((splitTags x).map replaceUnderscoreHyphen).map
        escapeParens).map pystrip).filter (fun t => !t.isEmpty)) = []
    · rw [hempty]
      show auto_standardize_tags [] = joinComma []
      unfold auto_standardize_tags
      rw [if_pos (by decide)]
      rfl
    · have hnorm : ∀ t ∈ pyDedup (((((splitTags x).map replaceUnderscoreHyphen).map
          escapeParens).map pystrip).filter (fun t => !t.isEmpty)), NormTag t := by
        intro t ht
        exact autoTags_norm (mem_dedupAux _ _ ht)
      have hnd := (dedupAux_nodup_and_fresh (((((splitTags x).map
        replaceUnderscoreHyphen).map escapeParens).map pystrip).filter
          (fun t => !t.isEmpty)) []).1
      exact auto_roundtrip hempty hnorm hnd

end FDD
